import Mathlib

/-!
Bypass character device of the XDMA driver (`cdev_bypass.c`).

A shallow embedding of `copy_desc_data`, `char_bypass_read` and
`char_bypass_write`.

* `size_t` values are natural numbers, arithmetic on them is taken modulo `2 ^ 64`;
  `int` is 32 bits wide and `ssize_t` 64 bits wide, both two's complement.
* `sizeof(struct xdma_desc)` is declared in a header that is not part of the sources at
  hand; it is the parameter `D` of the read path.
* The result of `xcdev_check` (declared elsewhere) is the field `check` of the handle.
* Every access to shared state (lock, transfer list, caller buffer, bypass register) is
  appended to an event trace, in program order.
-/

namespace XdmaBypass

/-! ## Machine integers and error numbers -/

/-- errno `EINVAL`. -/
def EINVAL : Int := 22

/-- errno `ENOMEM`. -/
def ENOMEM : Int := 12

/-- errno `ENODEV`. -/
def ENODEV : Int := 19

/-- One more than the largest `size_t`. -/
def SIZE_MOD : Nat := 2 ^ 64

/-- Conversion of a `size_t` to `int` (keeps the low 32 bits, two's complement). -/
def to_int (x : Nat) : Int :=
  if x % 2 ^ 32 < 2 ^ 31 then ((x % 2 ^ 32 : Nat) : Int) else ((x % 2 ^ 32 : Nat) : Int) - 2 ^ 32

/-- Conversion of a `size_t` to `ssize_t` (two's complement, 64 bits). -/
def to_ssize_t (x : Nat) : Int :=
  if x % 2 ^ 64 < 2 ^ 63 then ((x % 2 ^ 64 : Nat) : Int) else ((x % 2 ^ 64 : Nat) : Int) - 2 ^ 64

/-! ## Data model -/

/-- A byte of memory; its value is only ever copied, never inspected. -/
abbrev Byte := Nat

/-- The fields of `struct xdma_transfer` that the bypass device reads: the number of
descriptors and the memory `desc_virt` points to, addressed by byte offset. -/
structure xdma_transfer where
  desc_num : Int
  desc_virt : Nat → Byte

/-- The fields of `struct xdma_engine` used here (the lock is represented by the
`spin_lock` and `spin_unlock` events). -/
structure xdma_engine where
  transfer_list : List xdma_transfer
  bypass_offset : Nat

/-- The fields of `struct xdma_dev` used here: the mapped BARs and the index of the bypass
BAR (negative when the device has none). -/
structure xdma_dev where
  bar : Nat → Nat
  bypass_bar_idx : Int

/-- The handle `file->private_data`; `check` is the value `xcdev_check` returns for it
(0 for a valid handle, a negative error number otherwise). -/
structure xdma_cdev where
  check : Int
  xdev : xdma_dev
  engine : xdma_engine

/-- Accesses to shared state, in program order. `copy_to_user off src err` is a call with
destination `&buf[off]`, source bytes `src` and return value `err` (bytes not copied);
`no_room off` marks a descriptor that failed the capacity test at offset `off`;
`copy_from_user off ok` is the read of the word at `&buf[off]`;
`iowrite32 v addr` is a register write. -/
inductive Event where
  | spin_lock
  | spin_unlock
  | list_empty
  | list_entry (k : Nat)
  | copy_to_user (off : Nat) (src : List Byte) (err : Nat)
  | no_room (off : Nat)
  | copy_from_user (off : Nat) (ok : Bool)
  | iowrite32 (v : Nat) (addr : Nat)
  deriving DecidableEq

/-! ## The write path -/

/-- Local variables of `char_bypass_write` that change in its loop, with the trace. -/
structure WState where
  buf_offset : Nat
  rc : Int
  trace : List Event

/-- The loop `while (buf_offset < count)` of `char_bypass_write`. `ubuf off` is what
`copy_from_user` obtains for the word at `&buf[off]` (`none` when the copy fails). The
fuel bounds the number of iterations; `none` means the fuel ran out. -/
def write_loop (ubuf : Nat → Option Nat) (bypass_addr count : Nat) :
    Nat → WState → Option WState
  | 0, s => if s.buf_offset < count then none else some s
  | fuel + 1, s =>
    if s.buf_offset < count then
      match ubuf s.buf_offset with
      | some desc_data =>
        let off := (s.buf_offset + 4) % SIZE_MOD
        write_loop ubuf bypass_addr count fuel
          { buf_offset := off
            rc := to_int off
            trace := s.trace ++ [Event.copy_from_user s.buf_offset true,
                                 Event.iowrite32 (desc_data % 2 ^ 32) bypass_addr] }
      | none =>
        some { s with rc := -EINVAL
                      trace := s.trace ++ [Event.copy_from_user s.buf_offset false] }
    else some s

/-- What a call leaves behind: the value returned and the trace of accesses. -/
structure WResult where
  ret : Int
  trace : List Event
  deriving DecidableEq

/-- The address of the bypass register: `(u32 *)xdev->bar[bypass_bar_idx] + bypass_offset`. -/
def bypass_addr (xcdev : xdma_cdev) : Nat :=
  (xcdev.xdev.bar xcdev.xdev.bypass_bar_idx.toNat + 4 * xcdev.engine.bypass_offset) % SIZE_MOD

/-- The function `char_bypass_write`. `buf` is the user pointer (`0` is `NULL`), `ubuf` the
words it points to, `count` the declared length. -/
def char_bypass_write (fuel : Nat) (xcdev : xdma_cdev) (buf : Nat) (ubuf : Nat → Option Nat)
    (count : Nat) : Option WResult :=
  if xcdev.check < 0 then some ⟨xcdev.check, []⟩
  else if count &&& 3 ≠ 0 then some ⟨-EINVAL, []⟩
  else if buf = 0 then some ⟨-EINVAL, []⟩
  else if xcdev.xdev.bypass_bar_idx < 0 then some ⟨-ENODEV, []⟩
  else
    match write_loop ubuf (bypass_addr xcdev) count fuel ⟨0, 0, [Event.spin_lock]⟩ with
    | some s => some ⟨s.rc, s.trace ++ [Event.spin_unlock]⟩
    | none => none

/-- The register writes of a trace, as pairs (value, address), in order. -/
def reg_writes : List Event → List (Nat × Nat)
  | [] => []
  | Event.iowrite32 v a :: es => (v, a) :: reg_writes es
  | _ :: es => reg_writes es

/-! ## The read path -/

/-- The descriptor `transfer->desc_virt + i`: `D` bytes starting at byte `i * D`. -/
def desc_at (D : Nat) (t : xdma_transfer) (i : Nat) : List Byte :=
  (List.range D).map (fun j => t.desc_virt (i * D + j))

/-- Memory `mem` with the bytes `bs` stored from offset `off` on. -/
def blit (mem : Nat → Byte) (off : Nat) (bs : List Byte) : Nat → Byte :=
  fun a => if off ≤ a ∧ a < off + bs.length then bs.getD (a - off) 0 else mem a

/-- Memory `mem` with the bytes `bs` stored from the address `&buf[off]` on, the address
arithmetic being modulo `2 ^ 64`: byte `i` goes to the offset `(off + i) mod 2 ^ 64`. -/
def blit_wrap (mem : Nat → Byte) (off : Nat) (bs : List Byte) : Nat → Byte :=
  fun a =>
    if a < SIZE_MOD ∧ (a + SIZE_MOD - off % SIZE_MOD) % SIZE_MOD < bs.length then
      bs.getD ((a + SIZE_MOD - off % SIZE_MOD) % SIZE_MOD) 0
    else mem a

/-- The effect of `copy_to_user(&buf[off], src, |src|)` returning `err`: the bytes that
could be copied, all but the last `err`, are in the caller buffer, from `&buf[off]` on. -/
def copy_to_user (mem : Nat → Byte) (off : Nat) (src : List Byte) (err : Nat) : Nat → Byte :=
  blit_wrap mem off (src.take (src.length - err))

/-- The caller buffer (by offset from `buf`, modulo `2 ^ 64`), the output offset `*buf_offset`, the number of
`copy_to_user` calls made so far, and the trace. -/
structure RState where
  mem : Nat → Byte
  buf_offset : Nat
  ncopy : Nat
  trace : List Event

/-- The loop `for (i = 0; i < transfer->desc_num; i++)` of `copy_desc_data`, with `n`
iterations left at index `i`. `fault c` is the value the `c`-th call of `copy_to_user`
returns (the number of bytes it could not copy, at most `D`). -/
def desc_loop (D : Nat) (fault : Nat → Nat) (t : xdma_transfer) (buf_size : Nat) :
    Nat → Nat → Int → RState → Int × RState
  | 0, _, rc, s => (rc, s)
  | n + 1, i, rc, s =>
    if (s.buf_offset + D) % SIZE_MOD ≤ buf_size then
      let copy_err := min (fault s.ncopy) D
      let s1 : RState :=
        { s with mem := copy_to_user s.mem s.buf_offset (desc_at D t i) copy_err
                 ncopy := s.ncopy + 1
                 trace := s.trace ++ [Event.copy_to_user s.buf_offset (desc_at D t i) copy_err] }
      if copy_err ≠ 0 then
        desc_loop D fault t buf_size n (i + 1) (-EINVAL) { s1 with buf_offset := buf_size }
      else
        desc_loop D fault t buf_size n (i + 1) rc
          { s1 with buf_offset := (s.buf_offset + D) % SIZE_MOD }
    else
      desc_loop D fault t buf_size n (i + 1) (-ENOMEM)
        { s with trace := s.trace ++ [Event.no_room s.buf_offset] }

/-- The function `copy_desc_data`. Its argument `buf_offset` is the address of a local
variable of the caller, never `NULL`, so the second pointer test always passes; the
variable itself is the field `buf_offset` of the state. -/
def copy_desc_data (D : Nat) (fault : Nat → Nat) (t : xdma_transfer) (buf : Nat)
    (buf_size : Nat) (s : RState) : Int × RState :=
  if buf = 0 then (-EINVAL, s)
  else desc_loop D fault t buf_size t.desc_num.toNat 0 0 s

/-- The traversal `list_for_each` of `char_bypass_read`: `rc` is overwritten by every call
of `copy_desc_data`; `k` numbers the entries. -/
def transfer_loop (D : Nat) (fault : Nat → Nat) (buf buf_size : Nat) :
    List xdma_transfer → Nat → Int → RState → Int × RState
  | [], _, rc, s => (rc, s)
  | t :: ts, k, _, s =>
    let r := copy_desc_data D fault t buf buf_size
      { s with trace := s.trace ++ [Event.list_entry k] }
    transfer_loop D fault buf buf_size ts (k + 1) r.1 r.2

/-- What a read leaves behind: the value returned, the caller buffer, the final output
offset and the trace. -/
structure RResult where
  ret : Int
  mem : Nat → Byte
  buf_offset : Nat
  trace : List Event

/-- The function `char_bypass_read`. `buf` is the user pointer (`0` is `NULL`), `mem` the
bytes it points to, `count` the declared capacity. -/
def char_bypass_read (D : Nat) (xcdev : xdma_cdev) (buf : Nat) (mem : Nat → Byte)
    (fault : Nat → Nat) (count : Nat) : RResult :=
  if xcdev.check < 0 then ⟨xcdev.check, mem, 0, []⟩
  else if count &&& 3 ≠ 0 then ⟨-EINVAL, mem, 0, []⟩
  else if buf = 0 then ⟨-EINVAL, mem, 0, []⟩
  else if xcdev.xdev.bypass_bar_idx < 0 then ⟨-ENODEV, mem, 0, []⟩
  else
    let s0 : RState := ⟨mem, 0, 0, [Event.spin_lock, Event.list_empty]⟩
    let r := if xcdev.engine.transfer_list.isEmpty then ((0 : Int), s0)
             else transfer_loop D fault buf count xcdev.engine.transfer_list 0 0 s0
    ⟨if r.1 < 0 then r.1 else to_ssize_t r.2.buf_offset, r.2.mem, r.2.buf_offset,
     r.2.trace ++ [Event.spin_unlock]⟩

/-! ## Notions used to state the properties -/

/-- The descriptor records of one transfer, in index order. -/
def descs (D : Nat) (t : xdma_transfer) : List (List Byte) :=
  (List.range' 0 t.desc_num.toNat).map (desc_at D t)

/-- The descriptor records of a transfer list: transfers in list order, the records of each
in index order. -/
def all_descs (D : Nat) : List xdma_transfer → List (List Byte)
  | [] => []
  | t :: ts => descs D t ++ all_descs D ts

/-- The number of descriptor records of a transfer list. -/
def total_descs : List xdma_transfer → Nat
  | [] => 0
  | t :: ts => t.desc_num.toNat + total_descs ts

/-- The concatenation of a list of records. -/
def concat_bytes : List (List Byte) → List Byte
  | [] => []
  | r :: rs => r ++ concat_bytes rs

/-- The number of bytes the `copy_to_user` calls of a trace have put into the caller buffer. -/
def bytes_copied : List Event → Nat
  | [] => 0
  | Event.copy_to_user _ src err :: es => (src.length - err) + bytes_copied es
  | _ :: es => bytes_copied es

/-- The condition recorded in `rc` for every descriptor visited, in order of the visits:
`none` for a descriptor that was copied, `-EINVAL` for a failed copy, `-ENOMEM` for a
descriptor that did not fit. -/
def recorded : List Event → List (Option Int)
  | [] => []
  | Event.copy_to_user _ _ err :: es =>
    (if err ≠ 0 then some (-EINVAL) else none) :: recorded es
  | Event.no_room _ :: es => some (-ENOMEM) :: recorded es
  | _ :: es => recorded es

/-- The state of a traversal with respect to the conditions recorded so far: the output
offset is within the buffer and either every record visited was copied (the offset is `D`
times their number and `rc` is 0), or no further record fits and `rc` is the negative
value recorded for the last record visited. -/
def settled (D buf_size : Nat) (rc : Int) (s : RState) : Prop :=
  s.buf_offset ≤ buf_size ∧
  (((∀ c ∈ recorded s.trace, c = none) ∧ s.buf_offset = D * (recorded s.trace).length ∧ rc = 0) ∨
   (buf_size < s.buf_offset + D ∧ (recorded s.trace).getLast? = some (some rc) ∧ rc < 0))

/-- The words `copy_from_user` obtains at offsets `off`, `off + 4`, ... for at most `n`
words, up to but not including the first one that cannot be read; each as the `u32` it is
stored in. -/
def readable_words (ubuf : Nat → Option Nat) : Nat → Nat → List Nat
  | _, 0 => []
  | off, n + 1 =>
    match ubuf off with
    | some v => (v % 2 ^ 32) :: readable_words ubuf (off + 4) n
    | none => []

/-- The descriptor visits of a trace: the `copy_to_user` calls and the failed capacity
tests, in order. -/
def visits : List Event → List Event
  | [] => []
  | Event.copy_to_user off src err :: es => Event.copy_to_user off src err :: visits es
  | Event.no_room off :: es => Event.no_room off :: visits es
  | _ :: es => visits es

/-- Lock operations. -/
def is_lock_event : Event → Bool
  | Event.spin_lock => true
  | Event.spin_unlock => true
  | _ => false

/-- The events of the body of a read: list entries, `copy_to_user` calls and failed capacity
tests. -/
def is_read_body : Event → Bool
  | Event.list_entry _ => true
  | Event.copy_to_user _ _ _ => true
  | Event.no_room _ => true
  | _ => false

/-- The events of the body of a write: `copy_from_user` calls and register writes. -/
def is_write_body : Event → Bool
  | Event.copy_from_user _ _ => true
  | Event.iowrite32 _ _ => true
  | _ => false

/-- A `copy_to_user` call that copied everything. -/
def is_good_copy : Event → Bool
  | Event.copy_to_user _ _ err => err == 0
  | _ => false

/-- A `copy_to_user` call that failed. -/
def is_fault : Event → Bool
  | Event.copy_to_user _ _ err => err != 0
  | _ => false

/-- The condition recorded at one visit. -/
def cond_of : Event → Option Int
  | Event.copy_to_user _ _ err => if err ≠ 0 then some (-EINVAL) else none
  | Event.no_room _ => some (-ENOMEM)
  | _ => none

/-- The three phases of a traversal (output offset within the buffer throughout): every
record visited so far was copied and the offset counts the bytes copied; or no further
record fits and no copy has failed; or a copy has failed, since when the offset is
`buf_size`, fewer than `buf_size` bytes have been copied, and the visits are copies that
succeeded, then the failed copy, then failed capacity tests at offset `buf_size` only. -/
def read_phase (D buf_size : Nat) (s : RState) : Prop :=
  s.buf_offset ≤ buf_size ∧
  (((∀ e ∈ visits s.trace, is_good_copy e = true) ∧ bytes_copied s.trace = s.buf_offset) ∨
   (buf_size < s.buf_offset + D ∧ ∀ e ∈ visits s.trace, is_fault e = false) ∨
   (s.buf_offset = buf_size ∧ 0 < D ∧ bytes_copied s.trace < buf_size ∧
     ∃ pre off src err b,
       visits s.trace
         = pre ++ Event.copy_to_user off src err :: List.replicate b (Event.no_room buf_size) ∧
       err ≠ 0 ∧ ∀ e ∈ pre, is_good_copy e = true))

/-- A valid handle on a bypass-capable device whose engine has two outstanding transfers,
the first of one descriptor, the last of none. -/
def trailing_empty_cdev : xdma_cdev :=
  ⟨0, ⟨fun _ => 4096, 0⟩, ⟨[⟨1, fun j => j⟩, ⟨0, fun _ => 0⟩], 0⟩⟩

/-- The loop of `copy_desc_data` run over an explicit list of records. -/
def flat_loop (D : Nat) (fault : Nat → Nat) (buf_size : Nat) :
    List (List Byte) → Int → RState → Int × RState
  | [], rc, s => (rc, s)
  | src :: rest, rc, s =>
    if (s.buf_offset + D) % SIZE_MOD ≤ buf_size then
      let copy_err := min (fault s.ncopy) D
      let s1 : RState :=
        { s with mem := copy_to_user s.mem s.buf_offset src copy_err
                 ncopy := s.ncopy + 1
                 trace := s.trace ++ [Event.copy_to_user s.buf_offset src copy_err] }
      if copy_err ≠ 0 then
        flat_loop D fault buf_size rest (-EINVAL) { s1 with buf_offset := buf_size }
      else
        flat_loop D fault buf_size rest rc { s1 with buf_offset := (s.buf_offset + D) % SIZE_MOD }
    else
      flat_loop D fault buf_size rest (-ENOMEM)
        { s with trace := s.trace ++ [Event.no_room s.buf_offset] }

/-- The events of `n` successful iterations of the write loop that start at offset `off`. -/
def write_events (ubuf : Nat → Option Nat) (addr : Nat) : Nat → Nat → List Event
  | _, 0 => []
  | off, n + 1 =>
    Event.copy_from_user off true :: Event.iowrite32 ((ubuf off).getD 0 % 2 ^ 32) addr
      :: write_events ubuf addr (off + 4) n

/-! ## Sample handles -/

/-- A handle that passed `xcdev_check`, on a device whose bypass BAR is BAR 0 (mapped at
`0x1000`), with no outstanding transfer. -/
def sample_cdev : xdma_cdev :=
  ⟨0, ⟨fun _ => 4096, 0⟩, ⟨[], 0⟩⟩

/-- A valid handle on a device without bypass BAR (`bypass_bar_idx = -1`), with one
outstanding transfer of one descriptor. -/
def nobypass_cdev : xdma_cdev :=
  ⟨0, ⟨fun _ => 4096, -1⟩, ⟨[⟨1, fun _ => 0⟩], 0⟩⟩

/-- A valid handle on a bypass-capable device whose engine has one outstanding transfer of
one descriptor. -/
def one_desc_cdev : xdma_cdev :=
  ⟨0, ⟨fun _ => 4096, 0⟩, ⟨[⟨1, fun j => j + 1⟩], 0⟩⟩

/-- A valid handle on a bypass-capable device whose engine has two outstanding transfers,
of two descriptors and of one descriptor. -/
def three_desc_cdev : xdma_cdev :=
  ⟨0, ⟨fun _ => 4096, 0⟩, ⟨[⟨2, fun j => j⟩, ⟨1, fun j => 100 + j⟩], 0⟩⟩

/-! ## Machine integers -/

theorem land_three (n : Nat) : n &&& 3 = n % 4 := by
  have h := Nat.and_pow_two_sub_one_eq_mod n 2
  simpa using h

theorem to_ssize_t_of_lt (x : Nat) (h : x < 2 ^ 63) : to_ssize_t x = (x : Int) := by
  have h1 : x % 2 ^ 64 = x := Nat.mod_eq_of_lt (by omega)
  unfold to_ssize_t
  rw [h1, if_pos h]

theorem to_int_eq_iff (x : Nat) : to_int x = (x : Int) ↔ x < 2 ^ 31 := by
  unfold to_int
  split_ifs <;> omega

theorem to_int_lt_of_ge (x : Nat) (h : 2 ^ 31 ≤ x) : to_int x < (x : Int) := by
  unfold to_int
  split_ifs <;> omega

/-! ## The write loop -/

theorem reg_writes_append (a b : List Event) :
    reg_writes (a ++ b) = reg_writes a ++ reg_writes b := by
  induction a with
  | nil => rfl
  | cons e es ih => cases e <;> simp [reg_writes, ih]

theorem reg_writes_write_events (ubuf : Nat → Option Nat) (addr : Nat) (n : Nat) :
    ∀ off : Nat, reg_writes (write_events ubuf addr off n)
      = (List.range n).map (fun i => ((ubuf (off + 4 * i)).getD 0 % 2 ^ 32, addr)) := by
  induction n with
  | zero => intro off; rfl
  | succ n ih =>
    intro off
    simp only [write_events, reg_writes, ih, List.range_succ_eq_map, List.map_cons,
      List.map_map, Nat.mul_zero, Nat.add_zero]
    congr 1
    apply List.map_congr_left
    intro i _
    simp only [Function.comp_apply]
    have : off + 4 + 4 * i = off + 4 * (i + 1) := by ring
    rw [this]

theorem reg_writes_write_trace (ubuf : Nat → Option Nat) (addr n : Nat) (tail : List Event)
    (ht : reg_writes tail = []) :
    reg_writes (Event.spin_lock :: write_events ubuf addr 0 n ++ tail)
      = (List.range n).map (fun i => ((ubuf (4 * i)).getD 0 % 2 ^ 32, addr)) := by
  have h : Event.spin_lock :: write_events ubuf addr 0 n ++ tail
      = [Event.spin_lock] ++ (write_events ubuf addr 0 n ++ tail) := rfl
  rw [h, reg_writes_append, reg_writes_append, reg_writes_write_events, ht]
  simp [reg_writes]

theorem reg_writes_write_trace_addr (ubuf : Nat → Option Nat) (addr n : Nat)
    (tail : List Event) (ht : reg_writes tail = []) :
    (reg_writes (Event.spin_lock :: write_events ubuf addr 0 n ++ tail)).all
      (fun p => p.2 = addr) = true := by
  rw [reg_writes_write_trace ubuf addr n tail ht, List.all_eq_true]
  intro p hp
  obtain ⟨i, _, rfl⟩ := List.mem_map.mp hp
  simp

theorem reg_writes_bracket (ev : List Event) :
    reg_writes (([Event.spin_lock] ++ ev) ++ [Event.spin_unlock]) = reg_writes ev := by
  simp [reg_writes_append, reg_writes]

/-- Running `n` iterations whose words are all readable. -/
theorem write_loop_run (ubuf : Nat → Option Nat) (addr count : Nat) (hc : count < 2 ^ 64)
    (n : Nat) : ∀ (fuel : Nat) (s : WState), n ≤ fuel →
      (∀ i, i < n → (ubuf (s.buf_offset + 4 * i)).isSome = true) →
      s.buf_offset + 4 * n ≤ count →
      write_loop ubuf addr count fuel s
        = write_loop ubuf addr count (fuel - n)
            { buf_offset := s.buf_offset + 4 * n
              rc := if n = 0 then s.rc else to_int (s.buf_offset + 4 * n)
              trace := s.trace ++ write_events ubuf addr s.buf_offset n } := by
  induction n with
  | zero =>
    intro fuel s _ _ _
    simp [write_events]
  | succ n ih =>
    intro fuel s hf hr hle
    obtain ⟨f, rfl⟩ : ∃ f, fuel = f + 1 := ⟨fuel - 1, by omega⟩
    have hlt : s.buf_offset < count := by omega
    have h0 := hr 0 (by omega)
    simp only [Nat.mul_zero, Nat.add_zero] at h0
    obtain ⟨v, hv⟩ := Option.isSome_iff_exists.mp h0
    have hmod : (s.buf_offset + 4) % SIZE_MOD = s.buf_offset + 4 := by
      apply Nat.mod_eq_of_lt
      simp only [SIZE_MOD]
      omega
    rw [write_loop]
    simp only [hlt, if_true, hv, hmod]
    rw [ih f _ (by omega)
      (by
        intro i hi
        have := hr (i + 1) (by omega)
        have e : s.buf_offset + 4 + 4 * i = s.buf_offset + 4 * (i + 1) := by ring
        simp only [e]
        exact this)
      (by simp only; omega)]
    have e1 : f + 1 - (n + 1) = f - n := by omega
    have e2 : s.buf_offset + 4 + 4 * n = s.buf_offset + 4 * (n + 1) := by ring
    simp only [e1, e2, write_events, hv, Option.getD_some, List.append_assoc,
      List.cons_append, List.nil_append, Nat.succ_ne_zero, if_false, ite_self]
    by_cases hn : n = 0
    · subst hn; simp [write_events]
    · simp [hn]

theorem write_loop_done (ubuf : Nat → Option Nat) (addr count fuel : Nat) (s : WState)
    (h : count ≤ s.buf_offset) : write_loop ubuf addr count fuel s = some s := by
  have hn : ¬ s.buf_offset < count := by omega
  cases fuel <;> simp [write_loop, hn]

theorem write_loop_fault (ubuf : Nat → Option Nat) (addr count fuel : Nat) (s : WState)
    (hf : 0 < fuel) (h : s.buf_offset < count) (hu : ubuf s.buf_offset = none) :
    write_loop ubuf addr count fuel s
      = some { s with rc := -EINVAL
                      trace := s.trace ++ [Event.copy_from_user s.buf_offset false] } := by
  obtain ⟨f, rfl⟩ : ∃ f, fuel = f + 1 := ⟨fuel - 1, by omega⟩
  simp [write_loop, h, hu]

/-- With fuel for the `n` words left, the write loop returns; what it adds to the trace are
`copy_from_user` calls and writes to the one register address, and the values written are
the readable prefix of the words left. -/
theorem write_loop_general (ubuf : Nat → Option Nat) (addr count : Nat) (hc : count < 2 ^ 64)
    (n : Nat) : ∀ (fuel : Nat) (s : WState), n ≤ fuel → s.buf_offset + 4 * n = count →
      ∃ s' ev, write_loop ubuf addr count fuel s = some s' ∧ s'.trace = s.trace ++ ev ∧
        (∀ e ∈ ev, is_write_body e = true) ∧
        reg_writes ev = (readable_words ubuf s.buf_offset n).map (fun v => (v, addr)) := by
  induction n with
  | zero =>
    intro fuel s _ h
    exact ⟨s, [], write_loop_done _ _ _ _ _ (by omega), by simp, by simp, by simp [readable_words, reg_writes]⟩
  | succ n ih =>
    intro fuel s hf h
    obtain ⟨f, rfl⟩ : ∃ f, fuel = f + 1 := ⟨fuel - 1, by omega⟩
    have hlt : s.buf_offset < count := by omega
    cases hu : ubuf s.buf_offset with
    | none =>
      refine ⟨_, [Event.copy_from_user s.buf_offset false],
        write_loop_fault _ _ _ _ _ (by omega) hlt hu, rfl, ?_, ?_⟩
      · intro e he
        simp only [List.mem_singleton] at he
        subst he
        rfl
      · simp [readable_words, hu, reg_writes]
    | some v =>
      have hmod : (s.buf_offset + 4) % SIZE_MOD = s.buf_offset + 4 :=
        Nat.mod_eq_of_lt (by simp only [SIZE_MOD]; omega)
      obtain ⟨s', ev, h1, h2, h3, h4⟩ := ih f
        { buf_offset := s.buf_offset + 4
          rc := to_int (s.buf_offset + 4)
          trace := s.trace ++ [Event.copy_from_user s.buf_offset true,
                               Event.iowrite32 (v % 2 ^ 32) addr] }
        (by omega) (by simp only; omega)
      refine ⟨s', Event.copy_from_user s.buf_offset true :: Event.iowrite32 (v % 2 ^ 32) addr :: ev,
        ?_, ?_, ?_, ?_⟩
      · rw [write_loop]
        simp only [hlt, if_true, hu, hmod]
        exact h1
      · rw [h2]
        simp
      · intro e he
        simp only [List.mem_cons] at he
        rcases he with rfl | rfl | he
        · rfl
        · rfl
        · exact h3 e he
      · simp only [reg_writes, readable_words, hu, List.map_cons, h4]

/-- A call that passes the three tests runs the loop under the lock. -/
theorem char_bypass_write_valid (fuel : Nat) (xcdev : xdma_cdev) (buf : Nat)
    (ubuf : Nat → Option Nat) (count : Nat) (hchk : 0 ≤ xcdev.check) (hcnt : count % 4 = 0)
    (hbuf : buf ≠ 0) (hbar : 0 ≤ xcdev.xdev.bypass_bar_idx) :
    char_bypass_write fuel xcdev buf ubuf count
      = match write_loop ubuf (bypass_addr xcdev) count fuel ⟨0, 0, [Event.spin_lock]⟩ with
        | some s => some ⟨s.rc, s.trace ++ [Event.spin_unlock]⟩
        | none => none := by
  have h1 : ¬ xcdev.check < 0 := by omega
  have h2 : ¬ xcdev.xdev.bypass_bar_idx < 0 := by omega
  simp [char_bypass_write, h1, h2, land_three, hcnt, hbuf]

/-- A write of `k` readable words: the value returned is the byte count as converted to
`int`, and the register writes are the `k` words, each to the bypass address. -/
theorem char_bypass_write_readable (fuel : Nat) (xcdev : xdma_cdev) (buf : Nat)
    (ubuf : Nat → Option Nat) (k : Nat) (hchk : 0 ≤ xcdev.check) (hbuf : buf ≠ 0)
    (hbar : 0 ≤ xcdev.xdev.bypass_bar_idx) (hk : 4 * k < 2 ^ 64) (hfuel : k ≤ fuel)
    (hr : ∀ i, i < k → (ubuf (4 * i)).isSome = true) :
    char_bypass_write fuel xcdev buf ubuf (4 * k)
      = some ⟨to_int (4 * k),
          Event.spin_lock :: write_events ubuf (bypass_addr xcdev) 0 k ++ [Event.spin_unlock]⟩ := by
  rw [char_bypass_write_valid fuel xcdev buf ubuf (4 * k) hchk (by omega) hbuf hbar]
  rw [write_loop_run ubuf (bypass_addr xcdev) (4 * k) hk k fuel _ hfuel
    (by intro i hi; simpa using hr i hi) (by simp)]
  rw [write_loop_done _ _ _ _ _ (by simp)]
  by_cases h0 : k = 0
  · subst h0; simp [to_int, write_events]
  · simp [h0]

/-- A write whose word number `j` (counted from 0) is the first that cannot be read. -/
theorem char_bypass_write_faulting (fuel : Nat) (xcdev : xdma_cdev) (buf : Nat)
    (ubuf : Nat → Option Nat) (count j : Nat) (hchk : 0 ≤ xcdev.check) (hcnt : count % 4 = 0)
    (hbuf : buf ≠ 0) (hbar : 0 ≤ xcdev.xdev.bypass_bar_idx) (hc : count < 2 ^ 64)
    (hj : 4 * j < count) (hfuel : j < fuel)
    (hr : ∀ i, i < j → (ubuf (4 * i)).isSome = true) (hu : ubuf (4 * j) = none) :
    char_bypass_write fuel xcdev buf ubuf count
      = some ⟨-EINVAL,
          Event.spin_lock :: write_events ubuf (bypass_addr xcdev) 0 j
            ++ [Event.copy_from_user (4 * j) false, Event.spin_unlock]⟩ := by
  rw [char_bypass_write_valid fuel xcdev buf ubuf count hchk hcnt hbuf hbar]
  rw [write_loop_run ubuf (bypass_addr xcdev) count hc j fuel _ (by omega)
    (by intro i hi; simpa using hr i hi) (by simp only [Nat.zero_add]; omega)]
  rw [write_loop_fault _ _ _ _ _ (by omega) (by simp only [Nat.zero_add]; omega)
    (by simpa using hu)]
  simp

/-! ## The caller buffer and the descriptor records -/

theorem blit_nil (mem : Nat → Byte) (off : Nat) : blit mem off [] = mem := by
  funext a
  simp only [blit, List.length_nil, Nat.add_zero]
  rw [if_neg (by omega)]

theorem blit_append (mem : Nat → Byte) (off : Nat) (a b : List Byte) :
    blit (blit mem off a) (off + a.length) b = blit mem off (a ++ b) := by
  funext x
  simp only [blit, List.length_append]
  by_cases h1 : off + a.length ≤ x ∧ x < off + a.length + b.length
  · rw [if_pos h1, if_pos (by omega), List.getD_append_right _ _ _ _ (by omega)]
    congr 1
    omega
  · rw [if_neg h1]
    by_cases h2 : off ≤ x ∧ x < off + a.length
    · rw [if_pos h2, if_pos (by omega), List.getD_append _ _ _ _ (by omega)]
    · rw [if_neg h2, if_neg (by omega)]

theorem blit_wrap_eq_blit (mem : Nat → Byte) (off : Nat) (bs : List Byte)
    (h : off + bs.length ≤ SIZE_MOD) : blit_wrap mem off bs = blit mem off bs := by
  funext a
  simp only [blit_wrap, blit, SIZE_MOD] at h ⊢
  have hoff : off % 2 ^ 64 = off ∨ bs.length = 0 := by
    by_cases hl : bs.length = 0
    · exact Or.inr hl
    · exact Or.inl (Nat.mod_eq_of_lt (by omega))
  rcases hoff with hoff | hl
  · rw [hoff]
    by_cases h1 : off ≤ a ∧ a < off + bs.length
    · have e : (a + 2 ^ 64 - off) % 2 ^ 64 = a - off := by
        have : a + 2 ^ 64 - off = (a - off) + 2 ^ 64 := by omega
        rw [this, Nat.add_mod_right]
        exact Nat.mod_eq_of_lt (by omega)
      rw [if_pos h1, e, if_pos ⟨by omega, by omega⟩]
    · rw [if_neg h1, if_neg]
      rintro ⟨h2, h3⟩
      by_cases h4 : off ≤ a
      · have e : (a + 2 ^ 64 - off) % 2 ^ 64 = a - off := by
          have : a + 2 ^ 64 - off = (a - off) + 2 ^ 64 := by omega
          rw [this, Nat.add_mod_right]
          exact Nat.mod_eq_of_lt (by omega)
        rw [e] at h3
        exact h1 ⟨h4, by omega⟩
      · have e : (a + 2 ^ 64 - off) % 2 ^ 64 = a + 2 ^ 64 - off :=
          Nat.mod_eq_of_lt (by omega)
        rw [e] at h3
        omega
  · rw [if_neg (by omega), if_neg (by omega)]

theorem copy_to_user_ok (mem : Nat → Byte) (off : Nat) (src : List Byte)
    (h : off + src.length ≤ SIZE_MOD) : copy_to_user mem off src 0 = blit mem off src := by
  simp only [copy_to_user, Nat.sub_zero, List.take_length]
  exact blit_wrap_eq_blit mem off src h

theorem map_blit_range (mem : Nat → Byte) (bs : List Byte) :
    (List.range bs.length).map (blit mem 0 bs) = bs := by
  apply List.ext_getElem (by simp)
  intro n h1 h2
  simp only [List.getElem_map, List.getElem_range, blit, Nat.zero_add, Nat.sub_zero]
  rw [if_pos ⟨Nat.zero_le _, h2⟩, List.getD_eq_getElem _ _ h2]

theorem concat_bytes_append (a b : List (List Byte)) :
    concat_bytes (a ++ b) = concat_bytes a ++ concat_bytes b := by
  induction a with
  | nil => rfl
  | cons r rs ih => simp [concat_bytes, ih]

theorem concat_bytes_length (D : Nat) (recs : List (List Byte))
    (h : ∀ r ∈ recs, r.length = D) : (concat_bytes recs).length = D * recs.length := by
  induction recs with
  | nil => rfl
  | cons r rs ih =>
    simp only [concat_bytes, List.length_append, List.length_cons, Nat.mul_succ]
    rw [h r (List.mem_cons_self _ _), ih (fun x hx => h x (List.mem_cons_of_mem _ hx))]
    omega

theorem desc_at_length (D : Nat) (t : xdma_transfer) (i : Nat) : (desc_at D t i).length = D := by
  simp [desc_at]

theorem descs_length (D : Nat) (t : xdma_transfer) : (descs D t).length = t.desc_num.toNat := by
  simp [descs]

theorem descs_eq_nil (D : Nat) (t : xdma_transfer) : descs D t = [] ↔ t.desc_num ≤ 0 := by
  rw [← List.length_eq_zero, descs_length]
  omega

theorem descs_record_length (D : Nat) (t : xdma_transfer) :
    ∀ r ∈ descs D t, r.length = D := by
  intro r hr
  simp only [descs, List.mem_map] at hr
  obtain ⟨i, _, rfl⟩ := hr
  exact desc_at_length D t i

theorem all_descs_record_length (D : Nat) (l : List xdma_transfer) :
    ∀ r ∈ all_descs D l, r.length = D := by
  induction l with
  | nil => intro r hr; simp [all_descs] at hr
  | cons t ts ih =>
    intro r hr
    simp only [all_descs, List.mem_append] at hr
    rcases hr with hr | hr
    · exact descs_record_length D t r hr
    · exact ih r hr

theorem all_descs_length (D : Nat) (l : List xdma_transfer) :
    (all_descs D l).length = total_descs l := by
  induction l with
  | nil => rfl
  | cons t ts ih => simp [all_descs, total_descs, descs_length, ih]

theorem toNat_le_total_descs (l : List xdma_transfer) (t : xdma_transfer) (h : t ∈ l) :
    t.desc_num.toNat ≤ total_descs l := by
  induction l with
  | nil => simp at h
  | cons u us ih =>
    simp only [List.mem_cons] at h
    simp only [total_descs]
    rcases h with rfl | h
    · omega
    · have := ih h
      omega

/-! ## Traces of the read path -/

theorem recorded_append (a b : List Event) : recorded (a ++ b) = recorded a ++ recorded b := by
  induction a with
  | nil => rfl
  | cons e es ih => cases e <;> simp [recorded, ih]

theorem bytes_copied_append (a b : List Event) :
    bytes_copied (a ++ b) = bytes_copied a + bytes_copied b := by
  induction a with
  | nil => simp [bytes_copied]
  | cons e es ih => cases e <;> simp [bytes_copied, ih, Nat.add_assoc]

theorem bytes_copied_map_no_room {α : Type} (l : List α) (off : Nat) :
    bytes_copied (l.map (fun _ => Event.no_room off)) = 0 := by
  induction l with
  | nil => rfl
  | cons a l ih => simpa [bytes_copied] using ih

theorem bytes_copied_replicate_no_room (n off : Nat) :
    bytes_copied (List.replicate n (Event.no_room off)) = 0 := by
  induction n with
  | zero => rfl
  | succ n ih => simpa [List.replicate_succ, bytes_copied] using ih

theorem visits_append (a b : List Event) : visits (a ++ b) = visits a ++ visits b := by
  induction a with
  | nil => rfl
  | cons e es ih => cases e <;> simp [visits, ih]

theorem recorded_eq_map_visits (tr : List Event) : recorded tr = (visits tr).map cond_of := by
  induction tr with
  | nil => rfl
  | cons e es ih => cases e <;> simp [recorded, visits, cond_of, ih]

theorem mem_visits_of_copy (tr : List Event) (off : Nat) (src : List Byte) (err : Nat)
    (h : Event.copy_to_user off src err ∈ tr) : Event.copy_to_user off src err ∈ visits tr := by
  induction tr with
  | nil => simp at h
  | cons e es ih =>
    simp only [List.mem_cons] at h
    rcases h with rfl | h
    · simp [visits]
    · have := ih h
      cases e <;> simp [visits, this]

theorem not_fault_of_good (e : Event) (h : is_good_copy e = true) : is_fault e = false := by
  cases e <;> simp_all [is_good_copy, is_fault]

theorem reg_writes_read_body (ev : List Event) (h : ∀ e ∈ ev, is_read_body e = true) :
    reg_writes ev = [] := by
  induction ev with
  | nil => rfl
  | cons e es ih =>
    have he := h e (List.mem_cons_self _ _)
    have hes := ih (fun x hx => h x (List.mem_cons_of_mem _ hx))
    cases e <;> simp_all [reg_writes, is_read_body]

theorem not_lock_of_read_body (e : Event) (h : is_read_body e = true) :
    is_lock_event e = false := by
  cases e <;> simp_all [is_read_body, is_lock_event]

theorem not_lock_of_write_body (e : Event) (h : is_write_body e = true) :
    is_lock_event e = false := by
  cases e <;> simp_all [is_write_body, is_lock_event]

theorem getLast?_fault_shape (pre : List (Option Int)) (b : Nat) :
    (pre ++ some (-EINVAL) :: List.replicate b (some (-ENOMEM))).getLast?
      = some (some (if b = 0 then -EINVAL else -ENOMEM)) := by
  cases b with
  | zero => simp
  | succ b =>
    have : pre ++ some (-EINVAL) :: List.replicate (b + 1) (some (-ENOMEM))
        = (pre ++ some (-EINVAL) :: List.replicate b (some (-ENOMEM))) ++ [some (-ENOMEM)] := by
      simp [List.replicate_succ']
    rw [this, List.getLast?_concat]
    simp

/-! ## The read loops over explicit records -/

theorem desc_loop_eq_flat (D : Nat) (fault : Nat → Nat) (t : xdma_transfer) (buf_size : Nat)
    (n : Nat) : ∀ (i : Nat) (rc : Int) (s : RState),
    desc_loop D fault t buf_size n i rc s
      = flat_loop D fault buf_size ((List.range' i n).map (desc_at D t)) rc s := by
  induction n with
  | zero => intro i rc s; rfl
  | succ n ih =>
    intro i rc s
    simp only [List.range'_succ, List.map_cons, desc_loop, flat_loop, ih]

theorem copy_desc_data_eq_flat (D : Nat) (fault : Nat → Nat) (t : xdma_transfer)
    (buf buf_size : Nat) (s : RState) (hbuf : buf ≠ 0) :
    copy_desc_data D fault t buf buf_size s = flat_loop D fault buf_size (descs D t) 0 s := by
  simp [copy_desc_data, hbuf, descs, desc_loop_eq_flat]

/-- A read that passes the three tests traverses the list under the lock. -/
theorem char_bypass_read_valid (D : Nat) (xcdev : xdma_cdev) (buf : Nat) (mem : Nat → Byte)
    (fault : Nat → Nat) (count : Nat) (hchk : 0 ≤ xcdev.check) (hcnt : count % 4 = 0)
    (hbuf : buf ≠ 0) (hbar : 0 ≤ xcdev.xdev.bypass_bar_idx) :
    char_bypass_read D xcdev buf mem fault count
      = ⟨if (transfer_loop D fault buf count xcdev.engine.transfer_list 0 0
              ⟨mem, 0, 0, [Event.spin_lock, Event.list_empty]⟩).1 < 0
         then (transfer_loop D fault buf count xcdev.engine.transfer_list 0 0
              ⟨mem, 0, 0, [Event.spin_lock, Event.list_empty]⟩).1
         else to_ssize_t (transfer_loop D fault buf count xcdev.engine.transfer_list 0 0
              ⟨mem, 0, 0, [Event.spin_lock, Event.list_empty]⟩).2.buf_offset,
         (transfer_loop D fault buf count xcdev.engine.transfer_list 0 0
              ⟨mem, 0, 0, [Event.spin_lock, Event.list_empty]⟩).2.mem,
         (transfer_loop D fault buf count xcdev.engine.transfer_list 0 0
              ⟨mem, 0, 0, [Event.spin_lock, Event.list_empty]⟩).2.buf_offset,
         (transfer_loop D fault buf count xcdev.engine.transfer_list 0 0
              ⟨mem, 0, 0, [Event.spin_lock, Event.list_empty]⟩).2.trace
           ++ [Event.spin_unlock]⟩ := by
  have h1 : ¬ xcdev.check < 0 := by omega
  have h2 : ¬ xcdev.xdev.bypass_bar_idx < 0 := by omega
  cases hl : xcdev.engine.transfer_list with
  | nil => simp [char_bypass_read, h1, h2, land_three, hcnt, hbuf, hl, transfer_loop]
  | cons t ts => simp [char_bypass_read, h1, h2, land_three, hcnt, hbuf, hl]

theorem transfer_loop_append (D : Nat) (fault : Nat → Nat) (buf buf_size : Nat) :
    ∀ (l1 l2 : List xdma_transfer) (k : Nat) (rc : Int) (s : RState),
      transfer_loop D fault buf buf_size (l1 ++ l2) k rc s
        = transfer_loop D fault buf buf_size l2 (k + l1.length)
            (transfer_loop D fault buf buf_size l1 k rc s).1
            (transfer_loop D fault buf buf_size l1 k rc s).2 := by
  intro l1
  induction l1 with
  | nil => intro l2 k rc s; simp [transfer_loop]
  | cons t ts ih =>
    intro l2 k rc s
    have hk : k + 1 + ts.length = k + (t :: ts).length := by
      simp only [List.length_cons]; omega
    show transfer_loop D fault buf buf_size (t :: (ts ++ l2)) k rc s = _
    rw [transfer_loop, ih, hk]
    rfl

/-! ## The events of a read -/

theorem flat_loop_trace (D : Nat) (fault : Nat → Nat) (buf_size : Nat) :
    ∀ (recs : List (List Byte)) (rc : Int) (s : RState),
      ∃ ev, (flat_loop D fault buf_size recs rc s).2.trace = s.trace ++ ev ∧
        ∀ e ∈ ev, is_read_body e = true := by
  intro recs
  induction recs with
  | nil => intro rc s; exact ⟨[], by simp [flat_loop], by simp⟩
  | cons src rest ih =>
    intro rc s
    rw [flat_loop]
    dsimp only
    split_ifs
    · obtain ⟨ev, h1, h2⟩ := ih (-EINVAL)
        { mem := copy_to_user s.mem s.buf_offset src (min (fault s.ncopy) D)
          buf_offset := buf_size, ncopy := s.ncopy + 1
          trace := s.trace ++ [Event.copy_to_user s.buf_offset src (min (fault s.ncopy) D)] }
      refine ⟨Event.copy_to_user s.buf_offset src (min (fault s.ncopy) D) :: ev, ?_, ?_⟩
      · rw [h1]; simp
      · intro e he
        simp only [List.mem_cons] at he
        rcases he with rfl | he
        · rfl
        · exact h2 e he
    · obtain ⟨ev, h1, h2⟩ := ih rc
        { mem := copy_to_user s.mem s.buf_offset src (min (fault s.ncopy) D)
          buf_offset := (s.buf_offset + D) % SIZE_MOD, ncopy := s.ncopy + 1
          trace := s.trace ++ [Event.copy_to_user s.buf_offset src (min (fault s.ncopy) D)] }
      refine ⟨Event.copy_to_user s.buf_offset src (min (fault s.ncopy) D) :: ev, ?_, ?_⟩
      · rw [h1]; simp
      · intro e he
        simp only [List.mem_cons] at he
        rcases he with rfl | he
        · rfl
        · exact h2 e he
    · obtain ⟨ev, h1, h2⟩ := ih (-ENOMEM)
        { s with trace := s.trace ++ [Event.no_room s.buf_offset] }
      refine ⟨Event.no_room s.buf_offset :: ev, ?_, ?_⟩
      · rw [h1]; simp
      · intro e he
        simp only [List.mem_cons] at he
        rcases he with rfl | he
        · rfl
        · exact h2 e he

theorem copy_desc_data_trace (D : Nat) (fault : Nat → Nat) (t : xdma_transfer)
    (buf buf_size : Nat) (s : RState) :
    ∃ ev, (copy_desc_data D fault t buf buf_size s).2.trace = s.trace ++ ev ∧
      ∀ e ∈ ev, is_read_body e = true := by
  by_cases hbuf : buf = 0
  · exact ⟨[], by simp [copy_desc_data, hbuf], by simp⟩
  · rw [copy_desc_data_eq_flat D fault t buf buf_size s hbuf]
    exact flat_loop_trace D fault buf_size _ _ _

theorem transfer_loop_trace (D : Nat) (fault : Nat → Nat) (buf buf_size : Nat) :
    ∀ (l : List xdma_transfer) (k : Nat) (rc : Int) (s : RState),
      ∃ ev, (transfer_loop D fault buf buf_size l k rc s).2.trace = s.trace ++ ev ∧
        ∀ e ∈ ev, is_read_body e = true := by
  intro l
  induction l with
  | nil => intro k rc s; exact ⟨[], by simp [transfer_loop], by simp⟩
  | cons t ts ih =>
    intro k rc s
    rw [transfer_loop]
    obtain ⟨ev1, h1, h2⟩ := copy_desc_data_trace D fault t buf buf_size
      { s with trace := s.trace ++ [Event.list_entry k] }
    obtain ⟨ev2, h3, h4⟩ := ih (k + 1)
      (copy_desc_data D fault t buf buf_size
        { s with trace := s.trace ++ [Event.list_entry k] }).1
      (copy_desc_data D fault t buf buf_size
        { s with trace := s.trace ++ [Event.list_entry k] }).2
    refine ⟨Event.list_entry k :: (ev1 ++ ev2), ?_, ?_⟩
    · rw [h3, h1]; simp
    · intro e he
      simp only [List.mem_cons, List.mem_append] at he
      rcases he with rfl | he | he
      · rfl
      · exact h2 e he
      · exact h4 e he

/-- The trace of a read: empty, or the lock, the emptiness test, events of the body and
the unlock. -/
theorem char_bypass_read_trace (D : Nat) (xcdev : xdma_cdev) (buf : Nat) (mem : Nat → Byte)
    (fault : Nat → Nat) (count : Nat) :
    (char_bypass_read D xcdev buf mem fault count).trace = [] ∨
    ∃ ev, (char_bypass_read D xcdev buf mem fault count).trace
        = Event.spin_lock :: Event.list_empty :: ev ++ [Event.spin_unlock] ∧
      ∀ e ∈ ev, is_read_body e = true := by
  unfold char_bypass_read
  split_ifs with h1 h2 h3 h4
  · exact Or.inl rfl
  · exact Or.inl rfl
  · exact Or.inl rfl
  · exact Or.inl rfl
  · right
    exact ⟨[], rfl, by simp⟩
  · right
    dsimp only
    obtain ⟨ev, e1, e2⟩ := transfer_loop_trace D fault buf count xcdev.engine.transfer_list 0 0
      ⟨mem, 0, 0, [Event.spin_lock, Event.list_empty]⟩
    exact ⟨ev, by rw [e1]; simp, e2⟩

/-! ## The read loops: a buffer that is full -/

/-- Once no record fits (`buf_size < buf_offset + D`, no wrap-around), every further record
fails the capacity test: nothing is copied and `rc` becomes `-ENOMEM`. -/
theorem flat_loop_stuck (D : Nat) (fault : Nat → Nat) (buf_size : Nat) :
    ∀ (recs : List (List Byte)) (rc : Int) (s : RState),
      buf_size < s.buf_offset + D → s.buf_offset + D < 2 ^ 64 →
      flat_loop D fault buf_size recs rc s
        = (if recs = [] then rc else -ENOMEM,
           { s with trace := s.trace ++ recs.map (fun _ => Event.no_room s.buf_offset) }) := by
  intro recs
  induction recs with
  | nil => intro rc s _ _; simp [flat_loop]
  | cons src rest ih =>
    intro rc s h1 h2
    have hmod : (s.buf_offset + D) % SIZE_MOD = s.buf_offset + D :=
      Nat.mod_eq_of_lt (by simpa [SIZE_MOD] using h2)
    have hn : ¬ s.buf_offset + D ≤ buf_size := by omega
    rw [flat_loop]
    simp only [hmod, hn, if_false]
    rw [ih _ _ (by simpa using h1) (by simpa using h2)]
    by_cases hr : rest = []
    · subst hr; simp
    · simp [hr]

/-- A traversal that starts with a full buffer copies nothing; its status is that of the
last transfer: `-ENOMEM` when that transfer has a descriptor, 0 otherwise. -/
theorem transfer_loop_stuck (D : Nat) (fault : Nat → Nat) (buf buf_size : Nat) (hbuf : buf ≠ 0) :
    ∀ (l : List xdma_transfer) (k : Nat) (rc : Int) (s : RState),
      buf_size < s.buf_offset + D → s.buf_offset + D < 2 ^ 64 →
      (transfer_loop D fault buf buf_size l k rc s).1
        = (match l.getLast? with
           | none => rc
           | some t => if 0 < t.desc_num then -ENOMEM else 0) ∧
      (transfer_loop D fault buf buf_size l k rc s).2.mem = s.mem ∧
      (transfer_loop D fault buf buf_size l k rc s).2.buf_offset = s.buf_offset ∧
      bytes_copied (transfer_loop D fault buf buf_size l k rc s).2.trace
        = bytes_copied s.trace := by
  intro l
  induction l with
  | nil => intro k rc s _ _; simp [transfer_loop]
  | cons t ts ih =>
    intro k rc s h1 h2
    rw [transfer_loop]
    simp only [copy_desc_data_eq_flat D fault t buf buf_size _ hbuf]
    rw [flat_loop_stuck D fault buf_size (descs D t) 0 _ (by simpa using h1) (by simpa using h2)]
    obtain ⟨e1, e2, e3, e4⟩ := ih (k + 1) (if descs D t = [] then 0 else -ENOMEM)
      { s with trace := s.trace ++ [Event.list_entry k]
                 ++ (descs D t).map (fun _ => Event.no_room s.buf_offset) }
      (by simpa using h1) (by simpa using h2)
    refine ⟨?_, ?_, ?_, ?_⟩
    · rw [e1]
      cases ts with
      | nil =>
        simp only [List.getLast?_nil, List.getLast?_singleton, descs_eq_nil]
        by_cases hd : t.desc_num ≤ 0
        · have : ¬ 0 < t.desc_num := by omega
          simp [hd, this]
        · have : 0 < t.desc_num := by omega
          simp [hd, this]
      | cons u us =>
        rw [List.getLast?_cons_cons, List.getLast?_eq_getLast (u :: us) (by simp)]
    · rw [e2]
    · rw [e3]
    · rw [e4]
      simp only [bytes_copied_append, bytes_copied_map_no_room]
      simp [bytes_copied]

/-! ## The read loops: recorded conditions are sticky -/

theorem flat_loop_recorded_length (D : Nat) (fault : Nat → Nat) (buf_size : Nat) :
    ∀ (recs : List (List Byte)) (rc : Int) (s : RState),
      (recorded (flat_loop D fault buf_size recs rc s).2.trace).length
        = (recorded s.trace).length + recs.length := by
  intro recs
  induction recs with
  | nil => intro rc s; simp [flat_loop]
  | cons src rest ih =>
    intro rc s
    rw [flat_loop]
    dsimp only
    split_ifs <;> rw [ih] <;> simp [recorded_append, recorded] <;> omega

theorem settled_step_no_room (D buf_size : Nat) (s : RState) (h1 : s.buf_offset ≤ buf_size)
    (h2 : buf_size < s.buf_offset + D) :
    settled D buf_size (-ENOMEM)
      { s with trace := s.trace ++ [Event.no_room s.buf_offset] } := by
  refine ⟨h1, Or.inr ⟨h2, ?_, by decide⟩⟩
  simp [recorded_append, recorded]

theorem settled_init (D buf_size : Nat) (mem : Nat → Byte) :
    settled D buf_size 0 ⟨mem, 0, 0, [Event.spin_lock, Event.list_empty]⟩ :=
  ⟨Nat.zero_le _, Or.inl ⟨by simp [recorded], by simp [recorded], rfl⟩⟩

/-- One run of the descriptor loop keeps a settled state settled. -/
theorem flat_loop_settled (D : Nat) (fault : Nat → Nat) (buf_size : Nat)
    (hB : buf_size + D < 2 ^ 64) :
    ∀ (recs : List (List Byte)) (rc : Int) (s : RState), settled D buf_size rc s →
      settled D buf_size (flat_loop D fault buf_size recs rc s).1
        (flat_loop D fault buf_size recs rc s).2 := by
  intro recs
  induction recs with
  | nil => intro rc s h; simpa [flat_loop] using h
  | cons src rest ih =>
    intro rc s h
    obtain ⟨hle, hcase⟩ := h
    have hmod : (s.buf_offset + D) % SIZE_MOD = s.buf_offset + D :=
      Nat.mod_eq_of_lt (by simp only [SIZE_MOD]; omega)
    rw [flat_loop]
    simp only [hmod]
    by_cases hfit : s.buf_offset + D ≤ buf_size
    · obtain ⟨hall, hoff, hrc⟩ | ⟨hst, _, _⟩ := hcase
      · simp only [hfit, if_true]
        by_cases herr : min (fault s.ncopy) D ≠ 0
        · simp only [herr, ne_eq, not_false_eq_true, if_true]
          apply ih
          refine ⟨le_refl _, Or.inr ⟨?_, ?_, by decide⟩⟩
          · have : 0 < D := by
              rcases Nat.eq_zero_or_pos D with h0 | h0
              · exact absurd (by simp [h0]) herr
              · exact h0
            simp only
            omega
          · simp [recorded_append, recorded, herr]
        · simp only [herr, if_false]
          apply ih
          have herr0 : min (fault s.ncopy) D = 0 := by
            by_contra hc; exact herr hc
          refine ⟨hfit, Or.inl ⟨?_, ?_, hrc⟩⟩
          · intro c hc
            simp only [recorded_append, recorded, herr0, ne_eq, not_true_eq_false, if_false,
              List.mem_append, List.mem_singleton] at hc
            rcases hc with hc | hc
            · exact hall c hc
            · exact hc
          · simp only [recorded_append, recorded, List.length_append, List.length_singleton,
              Nat.mul_add, Nat.mul_one, ← hoff]
      · omega
    · simp only [hfit, if_false]
      apply ih
      exact settled_step_no_room D buf_size s hle (by omega)

/-- A run over at least one record that starts with a full buffer ends settled, whatever
`rc` was at the start. -/
theorem flat_loop_settled_of_full (D : Nat) (fault : Nat → Nat) (buf_size : Nat)
    (hB : buf_size + D < 2 ^ 64) (recs : List (List Byte)) (rc : Int) (s : RState)
    (hne : recs ≠ []) (h1 : s.buf_offset ≤ buf_size) (h2 : buf_size < s.buf_offset + D) :
    settled D buf_size (flat_loop D fault buf_size recs rc s).1
      (flat_loop D fault buf_size recs rc s).2 := by
  cases recs with
  | nil => exact absurd rfl hne
  | cons src rest =>
    have hmod : (s.buf_offset + D) % SIZE_MOD = s.buf_offset + D :=
      Nat.mod_eq_of_lt (by simp only [SIZE_MOD]; omega)
    have hfit : ¬ s.buf_offset + D ≤ buf_size := by omega
    rw [flat_loop]
    simp only [hmod, hfit, if_false]
    exact flat_loop_settled D fault buf_size hB rest _ _ (settled_step_no_room D buf_size s h1 h2)

theorem transfer_loop_recorded_length (D : Nat) (fault : Nat → Nat) (buf buf_size : Nat)
    (hbuf : buf ≠ 0) : ∀ (l : List xdma_transfer) (k : Nat) (rc : Int) (s : RState),
      (recorded (transfer_loop D fault buf buf_size l k rc s).2.trace).length
        = (recorded s.trace).length + total_descs l := by
  intro l
  induction l with
  | nil => intro k rc s; simp [transfer_loop, total_descs]
  | cons t ts ih =>
    intro k rc s
    rw [transfer_loop]
    simp only [copy_desc_data_eq_flat D fault t buf buf_size _ hbuf]
    rw [ih, flat_loop_recorded_length, descs_length]
    simp [recorded_append, recorded, total_descs, Nat.add_assoc]

/-- A traversal of transfers that own at least one record each keeps a settled state
settled. -/
theorem transfer_loop_settled (D : Nat) (fault : Nat → Nat) (buf buf_size : Nat)
    (hbuf : buf ≠ 0) (hB : buf_size + D < 2 ^ 64) :
    ∀ (l : List xdma_transfer) (k : Nat) (rc : Int) (s : RState),
      (∀ t ∈ l, 1 ≤ t.desc_num) → settled D buf_size rc s →
      settled D buf_size (transfer_loop D fault buf buf_size l k rc s).1
        (transfer_loop D fault buf buf_size l k rc s).2 := by
  intro l
  induction l with
  | nil => intro k rc s _ h; simpa [transfer_loop] using h
  | cons t ts ih =>
    intro k rc s hrec h
    rw [transfer_loop]
    simp only [copy_desc_data_eq_flat D fault t buf buf_size _ hbuf]
    apply ih _ _ _ (fun u hu => hrec u (List.mem_cons_of_mem _ hu))
    have ht : descs D t ≠ [] := by
      rw [ne_eq, descs_eq_nil]
      have := hrec t (List.mem_cons_self _ _)
      omega
    obtain ⟨hle, hcase⟩ := h
    have hrecd : recorded (s.trace ++ [Event.list_entry k]) = recorded s.trace := by
      simp [recorded_append, recorded]
    obtain ⟨hall, hoff, _⟩ | ⟨hst, _, _⟩ := hcase
    · apply flat_loop_settled D fault buf_size hB
      refine ⟨hle, Or.inl ⟨?_, ?_, rfl⟩⟩
      · simpa only [hrecd] using hall
      · simpa only [hrecd] using hoff
    · exact flat_loop_settled_of_full D fault buf_size hB _ _ _ ht hle hst

/-! ## The read loops when every copy succeeds -/

/-- The descriptor loop without copy faults, for a buffer with room for `cap` more records:
the first `cap` records are copied one after the other, the others only set `-ENOMEM`. -/
theorem flat_loop_nofault (D : Nat) (fault : Nat → Nat) (buf_size : Nat)
    (hf : ∀ c, fault c = 0) :
    ∀ (recs : List (List Byte)) (cap : Nat) (rc : Int) (s : RState),
      (recs ≠ [] → buf_size + D < 2 ^ 64) → (∀ r ∈ recs, r.length = D) →
      s.buf_offset + D * cap ≤ buf_size → buf_size < s.buf_offset + D * cap + D →
      (flat_loop D fault buf_size recs rc s).1 = (if cap < recs.length then -ENOMEM else rc) ∧
      (flat_loop D fault buf_size recs rc s).2.mem
        = blit s.mem s.buf_offset (concat_bytes (recs.take cap)) ∧
      (flat_loop D fault buf_size recs rc s).2.buf_offset
        = s.buf_offset + D * min recs.length cap ∧
      bytes_copied (flat_loop D fault buf_size recs rc s).2.trace
        = bytes_copied s.trace + D * min recs.length cap := by
  intro recs
  induction recs with
  | nil =>
    intro cap rc s _ _ _ _
    simp [flat_loop, concat_bytes, blit_nil]
  | cons src rest ih =>
    intro cap rc s hB hlen h1 h2
    have hB2 : buf_size + D < 2 ^ 64 := hB (by simp)
    cases cap with
    | zero =>
      simp only [Nat.mul_zero, Nat.add_zero] at h1 h2
      rw [flat_loop_stuck D fault buf_size (src :: rest) rc s h2 (by omega)]
      simp [concat_bytes, blit_nil, bytes_copied_append, bytes_copied,
        bytes_copied_replicate_no_room]
    | succ c =>
      have hmul : D * (c + 1) = D * c + D := Nat.mul_succ D c
      have hmod : (s.buf_offset + D) % SIZE_MOD = s.buf_offset + D :=
        Nat.mod_eq_of_lt (by simp only [SIZE_MOD]; omega)
      have hfit : s.buf_offset + D ≤ buf_size := by omega
      have hsrc : src.length = D := hlen src (List.mem_cons_self _ _)
      have hok := copy_to_user_ok s.mem s.buf_offset src (by simp only [SIZE_MOD]; omega)
      rw [flat_loop]
      simp only [hmod, hfit, if_true, hf, Nat.zero_min, ne_eq, not_true_eq_false, if_false,
        hok]
      obtain ⟨e1, e2, e3, e4⟩ := ih c rc
        { mem := blit s.mem s.buf_offset src, buf_offset := s.buf_offset + D,
          ncopy := s.ncopy + 1,
          trace := s.trace ++ [Event.copy_to_user s.buf_offset src 0] }
        (fun _ => hB2) (fun r hr => hlen r (List.mem_cons_of_mem _ hr))
        (by simp only; omega) (by simp only; omega)
      refine ⟨?_, ?_, ?_, ?_⟩
      · rw [e1]
        simp only [List.length_cons, Nat.add_lt_add_iff_right]
      · rw [e2]
        simp only [List.take_succ_cons, concat_bytes]
        rw [← hsrc, blit_append]
      · rw [e3]
        simp only [List.length_cons, Nat.succ_min_succ, Nat.mul_succ]
        omega
      · rw [e4]
        simp only [bytes_copied_append, bytes_copied, hsrc, List.length_cons,
          Nat.succ_min_succ, Nat.mul_succ]
        omega

/-- The traversal without copy faults, for a buffer with room for `cap` more records: the
first `cap` records of the list are copied one after the other; the status is `-ENOMEM`
when the last transfer owns a record and the list has more than `cap` records, else 0. -/
theorem transfer_loop_nofault (D : Nat) (fault : Nat → Nat) (buf buf_size : Nat)
    (hbuf : buf ≠ 0) (hf : ∀ c, fault c = 0) :
    ∀ (l : List xdma_transfer) (cap k : Nat) (rc : Int) (s : RState),
      (0 < total_descs l → buf_size + D < 2 ^ 64) →
      s.buf_offset + D * cap ≤ buf_size → buf_size < s.buf_offset + D * cap + D →
      (transfer_loop D fault buf buf_size l k rc s).1
        = (match l.getLast? with
           | none => rc
           | some t => if 0 < t.desc_num ∧ cap < total_descs l then -ENOMEM else 0) ∧
      (transfer_loop D fault buf buf_size l k rc s).2.mem
        = blit s.mem s.buf_offset (concat_bytes ((all_descs D l).take cap)) ∧
      (transfer_loop D fault buf buf_size l k rc s).2.buf_offset
        = s.buf_offset + D * min (total_descs l) cap ∧
      bytes_copied (transfer_loop D fault buf buf_size l k rc s).2.trace
        = bytes_copied s.trace + D * min (total_descs l) cap := by
  intro l
  induction l with
  | nil =>
    intro cap k rc s _ _ _
    simp [transfer_loop, all_descs, total_descs, concat_bytes, blit_nil]
  | cons t ts ih =>
    intro cap k rc s hB h1 h2
    rw [transfer_loop]
    simp only [copy_desc_data_eq_flat D fault t buf buf_size _ hbuf]
    obtain ⟨f1, f2, f3, f4⟩ := flat_loop_nofault D fault buf_size hf (descs D t) cap 0
      { s with trace := s.trace ++ [Event.list_entry k] }
      (by
        intro hne
        apply hB
        have : (descs D t).length ≠ 0 := fun h => hne (List.length_eq_zero.mp h)
        rw [descs_length] at this
        simp only [total_descs]
        omega)
      (descs_record_length D t) h1 h2
    rw [descs_length] at f1 f3 f4
    have hsplit : D * min t.desc_num.toNat cap + D * (cap - t.desc_num.toNat) = D * cap := by
      rw [← Nat.mul_add]
      congr 1
      omega
    obtain ⟨e1, e2, e3, e4⟩ := ih (cap - t.desc_num.toNat) (k + 1)
      (flat_loop D fault buf_size (descs D t) 0
        { s with trace := s.trace ++ [Event.list_entry k] }).1
      (flat_loop D fault buf_size (descs D t) 0
        { s with trace := s.trace ++ [Event.list_entry k] }).2
      (by intro h; apply hB; simp only [total_descs]; omega)
      (by rw [f3]; simp only; omega) (by rw [f3]; simp only; omega)
    have hmin : min t.desc_num.toNat cap + min (total_descs ts) (cap - t.desc_num.toNat)
        = min (t.desc_num.toNat + total_descs ts) cap := by omega
    refine ⟨?_, ?_, ?_, ?_⟩
    · rw [e1, f1]
      cases ts with
      | nil =>
        simp only [List.getLast?_nil, List.getLast?_singleton, total_descs, Nat.add_zero]
        by_cases hc : cap < t.desc_num.toNat
        · have : 0 < t.desc_num := by omega
          simp [hc, this]
        · simp [hc]
      | cons u us =>
        rw [List.getLast?_cons_cons, List.getLast?_eq_getLast (u :: us) (by simp)]
        have hmem := toNat_le_total_descs (u :: us) _ (List.getLast_mem (l := u :: us) (by simp))
        simp only [total_descs] at hmem ⊢
        by_cases hd : 0 < ((u :: us).getLast (by simp)).desc_num
        · have hiff : cap - t.desc_num.toNat < u.desc_num.toNat + total_descs us
              ↔ cap < t.desc_num.toNat + (u.desc_num.toNat + total_descs us) := by omega
          simp only [hd, true_and, hiff]
        · simp only [hd, false_and, if_false]
    · rw [e2, f2, f3]
      simp only [all_descs, List.take_append_eq_append_take, concat_bytes_append, descs_length]
      have hl : (concat_bytes ((descs D t).take cap)).length = D * min t.desc_num.toNat cap := by
        rw [concat_bytes_length D _ (fun r hr => descs_record_length D t r (List.mem_of_mem_take hr))]
        simp [descs_length, Nat.min_comm]
      rw [← hl, blit_append]
    · rw [e3, f3]
      simp only [total_descs, ← hmin, Nat.mul_add]
      omega
    · rw [e4, f4]
      simp only [total_descs, ← hmin, Nat.mul_add, bytes_copied_append, bytes_copied]
      omega

/-! ## The read loops: the three phases of a traversal -/

theorem read_phase_init (D buf_size : Nat) (mem : Nat → Byte) :
    read_phase D buf_size ⟨mem, 0, 0, [Event.spin_lock, Event.list_empty]⟩ :=
  ⟨Nat.zero_le _, Or.inl ⟨by simp [visits], by simp [bytes_copied]⟩⟩

/-- One run of the descriptor loop over records of `D` bytes keeps the phase description. -/
theorem flat_loop_phase (D : Nat) (fault : Nat → Nat) (buf_size : Nat)
    (hB : buf_size + D < 2 ^ 64) :
    ∀ (recs : List (List Byte)) (rc : Int) (s : RState), (∀ r ∈ recs, r.length = D) →
      read_phase D buf_size s → read_phase D buf_size (flat_loop D fault buf_size recs rc s).2 := by
  intro recs
  induction recs with
  | nil => intro rc s _ h; simpa [flat_loop] using h
  | cons src rest ih =>
    intro rc s hlen h
    have hsrc : src.length = D := hlen src (List.mem_cons_self _ _)
    have hrest : ∀ r ∈ rest, r.length = D := fun r hr => hlen r (List.mem_cons_of_mem _ hr)
    obtain ⟨hle, hcase⟩ := h
    have hmod : (s.buf_offset + D) % SIZE_MOD = s.buf_offset + D :=
      Nat.mod_eq_of_lt (by simp only [SIZE_MOD]; omega)
    rw [flat_loop]
    simp only [hmod]
    by_cases hfit : s.buf_offset + D ≤ buf_size
    · simp only [hfit, if_true]
      obtain ⟨hgood, hbytes⟩ | ⟨hst, _⟩ | ⟨hoff, hD, _, _⟩ := hcase
      · by_cases herr : min (fault s.ncopy) D ≠ 0
        · simp only [herr, ne_eq, not_false_eq_true, if_true]
          apply ih _ _ hrest
          have hD : 0 < D := by
            rcases Nat.eq_zero_or_pos D with h0 | h0
            · exact absurd (by simp [h0]) herr
            · exact h0
          have hmin : min (fault s.ncopy) D ≤ D := Nat.min_le_right _ _
          refine ⟨le_refl _, Or.inr (Or.inr ⟨rfl, hD, ?_, visits s.trace, s.buf_offset, src,
            min (fault s.ncopy) D, 0, ?_, herr, hgood⟩)⟩
          · simp only [bytes_copied_append, bytes_copied, hsrc, hbytes]
            omega
          · simp [visits_append, visits]
        · have herr0 : min (fault s.ncopy) D = 0 := by
            by_contra hc; exact herr hc
          simp only [herr0, ne_eq, not_true_eq_false, if_false]
          apply ih _ _ hrest
          refine ⟨hfit, Or.inl ⟨?_, ?_⟩⟩
          · intro e he
            simp only [visits_append, visits, List.mem_append, List.mem_singleton] at he
            rcases he with he | rfl
            · exact hgood e he
            · rfl
          · simp only [bytes_copied_append, bytes_copied, hsrc, hbytes]
            omega
      · omega
      · omega
    · simp only [hfit, if_false]
      apply ih _ _ hrest
      obtain ⟨hgood, _⟩ | ⟨hst, hnf⟩ | ⟨hoff, hD, hb, pre, off, src', err, b, hv, herr, hpre⟩ := hcase
      · refine ⟨hle, Or.inr (Or.inl ⟨by simp only; omega, ?_⟩)⟩
        intro e he
        simp only [visits_append, visits, List.mem_append, List.mem_singleton] at he
        rcases he with he | rfl
        · exact not_fault_of_good e (hgood e he)
        · rfl
      · refine ⟨hle, Or.inr (Or.inl ⟨by simp only; omega, ?_⟩)⟩
        intro e he
        simp only [visits_append, visits, List.mem_append, List.mem_singleton] at he
        rcases he with he | rfl
        · exact hnf e he
        · rfl
      · refine ⟨hle, Or.inr (Or.inr ⟨hoff, hD, ?_, pre, off, src', err, b + 1, ?_, herr, hpre⟩)⟩
        · simpa [bytes_copied_append, bytes_copied] using hb
        · simp only [visits_append, visits, hv, hoff, List.replicate_succ',
            List.append_assoc, List.cons_append]

/-- The traversal keeps the phase description. -/
theorem transfer_loop_phase (D : Nat) (fault : Nat → Nat) (buf buf_size : Nat) (hbuf : buf ≠ 0)
    (hB : buf_size + D < 2 ^ 64) :
    ∀ (l : List xdma_transfer) (k : Nat) (rc : Int) (s : RState), read_phase D buf_size s →
      read_phase D buf_size (transfer_loop D fault buf buf_size l k rc s).2 := by
  intro l
  induction l with
  | nil => intro k rc s h; simpa [transfer_loop] using h
  | cons t ts ih =>
    intro k rc s h
    rw [transfer_loop]
    simp only [copy_desc_data_eq_flat D fault t buf buf_size _ hbuf]
    apply ih
    apply flat_loop_phase D fault buf_size hB _ _ _ (descs_record_length D t)
    simpa [read_phase, visits_append, visits, bytes_copied_append, bytes_copied] using h

/-- The phase of a read in which some copy failed. -/
theorem read_phase_of_fault (D buf_size : Nat) (s : RState) (h : read_phase D buf_size s)
    (off : Nat) (src : List Byte) (err : Nat) (hmem : Event.copy_to_user off src err ∈ s.trace)
    (herr : err ≠ 0) :
    s.buf_offset = buf_size ∧ bytes_copied s.trace < buf_size ∧
    ∃ pre off src err b,
      visits s.trace
        = pre ++ Event.copy_to_user off src err :: List.replicate b (Event.no_room buf_size) ∧
      err ≠ 0 ∧ ∀ e ∈ pre, is_good_copy e = true := by
  have hv := mem_visits_of_copy s.trace off src err hmem
  obtain ⟨_, ⟨hgood, _⟩ | ⟨_, hnf⟩ | ⟨hoff, _, hb, hshape⟩⟩ := h
  · have := hgood _ hv
    simp [is_good_copy, herr] at this
  · have := hnf _ hv
    simp [is_fault, herr] at this
  · exact ⟨hoff, hb, hshape⟩

/-! ## The read loops: copies within the capacity when the sum does not wrap -/

/-- C1: for every `k` with `count = 4 * k < 2 ^ 31` (a write handler is handed at most
`MAX_RW_COUNT = 0x7ffff000` bytes by the kernel), every non-null buffer whose `k` words are
all readable and every engine with a bypass window, `char_bypass_write` called through a
valid handle returns `count`; its register writes are exactly the `k` words, in order, and
every one of them goes to the same address, the bypass address computed once before the
loop. Fuel for `k` iterations is enough. -/
theorem C1_write_all_words (fuel : Nat) (xcdev : xdma_cdev) (buf : Nat)
    (ubuf : Nat → Option Nat) (k : Nat) (hchk : 0 ≤ xcdev.check) (hbuf : buf ≠ 0)
    (hbar : 0 ≤ xcdev.xdev.bypass_bar_idx) (hk : 4 * k < 2 ^ 31) (hfuel : k ≤ fuel)
    (hr : ∀ i, i < k → (ubuf (4 * i)).isSome = true) :
    (char_bypass_write fuel xcdev buf ubuf (4 * k)).map WResult.ret
      = some ((4 * k : Nat) : Int) ∧
    (char_bypass_write fuel xcdev buf ubuf (4 * k)).map (fun r => reg_writes r.trace)
      = some ((List.range k).map
          (fun i => ((ubuf (4 * i)).getD 0 % 2 ^ 32, bypass_addr xcdev))) ∧
    (char_bypass_write fuel xcdev buf ubuf (4 * k)).map (fun r => (reg_writes r.trace).length)
      = some k ∧
    (char_bypass_write fuel xcdev buf ubuf (4 * k)).map
        (fun r => (reg_writes r.trace).all (fun p => p.2 = bypass_addr xcdev))
      = some true := by
  rw [char_bypass_write_readable fuel xcdev buf ubuf k hchk hbuf hbar (by omega) hfuel hr]
  refine ⟨?_, ?_, ?_, ?_⟩
  · rw [Option.map_some', (to_int_eq_iff (4 * k)).mpr hk]
  · rw [Option.map_some', reg_writes_write_trace _ _ _ [Event.spin_unlock] rfl]
  · simp only [Option.map_some', reg_writes_write_trace _ _ _ [Event.spin_unlock] rfl,
      List.length_map, List.length_range]
  · rw [Option.map_some', reg_writes_write_trace_addr _ _ _ [Event.spin_unlock] rfl]

/-- C1 at a concrete call: three readable words. -/
theorem C1_write_all_words_witness :
    (char_bypass_write 3 sample_cdev 1 (fun off => some (off + 7)) (4 * 3)).map WResult.ret
      = some ((4 * 3 : Nat) : Int) ∧
    (char_bypass_write 3 sample_cdev 1 (fun off => some (off + 7)) (4 * 3)).map
        (fun r => reg_writes r.trace)
      = some ((List.range 3).map
          (fun i => (((fun off => some (off + 7)) (4 * i)).getD 0 % 2 ^ 32,
            bypass_addr sample_cdev))) ∧
    (char_bypass_write 3 sample_cdev 1 (fun off => some (off + 7)) (4 * 3)).map
        (fun r => (reg_writes r.trace).length) = some 3 ∧
    (char_bypass_write 3 sample_cdev 1 (fun off => some (off + 7)) (4 * 3)).map
        (fun r => (reg_writes r.trace).all (fun p => p.2 = bypass_addr sample_cdev))
      = some true :=
  C1_write_all_words 3 sample_cdev 1 (fun off => some (off + 7)) 3
    (by decide) (by decide) (by decide) (by norm_num) (by decide) (fun _ _ => rfl)

/-- C2: in a write of `k` words (`count = 4 * k`) through a valid handle, with a non-null
buffer and a bypass window, whose `j`-th word (counted from 1, `j < k`) is the first that
cannot be read, `char_bypass_write` returns `-EINVAL`, and the register writes of the whole
call are exactly the `j - 1` words before it, each to the bypass address: none is undone and
none follows. Fuel for `j` iterations is enough. -/
theorem C2_write_fault_returns_einval (fuel : Nat) (xcdev : xdma_cdev) (buf : Nat)
    (ubuf : Nat → Option Nat) (k j : Nat) (hchk : 0 ≤ xcdev.check) (hbuf : buf ≠ 0)
    (hbar : 0 ≤ xcdev.xdev.bypass_bar_idx) (hk : 4 * k < 2 ^ 64) (hj1 : 1 ≤ j) (hjk : j < k)
    (hfuel : j ≤ fuel) (hr : ∀ i, i < j - 1 → (ubuf (4 * i)).isSome = true)
    (hu : ubuf (4 * (j - 1)) = none) :
    (char_bypass_write fuel xcdev buf ubuf (4 * k)).map WResult.ret = some (-EINVAL) ∧
    (char_bypass_write fuel xcdev buf ubuf (4 * k)).map (fun r => reg_writes r.trace)
      = some ((List.range (j - 1)).map
          (fun i => ((ubuf (4 * i)).getD 0 % 2 ^ 32, bypass_addr xcdev))) ∧
    (char_bypass_write fuel xcdev buf ubuf (4 * k)).map (fun r => (reg_writes r.trace).length)
      = some (j - 1) := by
  have h := char_bypass_write_faulting fuel xcdev buf ubuf (4 * k) (j - 1) hchk (by omega) hbuf
    hbar hk (by omega) (by omega) hr hu
  rw [h]
  simp only [Option.map_some', reg_writes_write_trace _ _ _
    [Event.copy_from_user (4 * (j - 1)) false, Event.spin_unlock] rfl,
    List.length_map, List.length_range, and_self]

/-- C2 at a concrete call: three words declared, the second one unreadable. -/
theorem C2_write_fault_returns_einval_witness :
    (char_bypass_write 2 sample_cdev 1 (fun off => if off = 0 then some 7 else none)
        (4 * 3)).map WResult.ret = some (-EINVAL) ∧
    (char_bypass_write 2 sample_cdev 1 (fun off => if off = 0 then some 7 else none)
        (4 * 3)).map (fun r => reg_writes r.trace)
      = some ((List.range (2 - 1)).map
          (fun i => (((fun off => if off = 0 then some 7 else none) (4 * i)).getD 0 % 2 ^ 32,
            bypass_addr sample_cdev))) ∧
    (char_bypass_write 2 sample_cdev 1 (fun off => if off = 0 then some 7 else none)
        (4 * 3)).map (fun r => (reg_writes r.trace).length) = some (2 - 1) :=
  C2_write_fault_returns_einval 2 sample_cdev 1 (fun off => if off = 0 then some 7 else none)
    3 2 (by decide) (by decide) (by decide) (by norm_num) (by decide) (by decide) (by decide)
    (by decide) (by decide)

/-! ## Claims on a read without copy faults -/

/-- C3: for a record size `D` that is a positive multiple of 4 and a transfer list whose `n`
records total exactly `buf_size` bytes (`n * D = buf_size`) and less than `2 ^ 63`, a read through
a valid handle with a non-null buffer and a bypass window, every copy succeeding, returns
`buf_size`, and afterwards the first `buf_size` bytes of the caller buffer are the
concatenation of all records, transfers in list order and records in index order. -/
theorem C3_read_exact_fit (D : Nat) (xcdev : xdma_cdev) (buf : Nat) (mem : Nat → Byte)
    (fault : Nat → Nat) (buf_size : Nat) (hchk : 0 ≤ xcdev.check) (hbuf : buf ≠ 0)
    (hbar : 0 ≤ xcdev.xdev.bypass_bar_idx) (hD : 0 < D) (hD4 : D % 4 = 0)
    (htot : total_descs xcdev.engine.transfer_list * D = buf_size)
    (hfit : D * total_descs xcdev.engine.transfer_list < 2 ^ 63) (hf : ∀ c, fault c = 0) :
    (char_bypass_read D xcdev buf mem fault buf_size).ret = (buf_size : Int) ∧
    (List.range buf_size).map (char_bypass_read D xcdev buf mem fault buf_size).mem
      = concat_bytes (all_descs D xcdev.engine.transfer_list) := by
  have htot2 : D * total_descs xcdev.engine.transfer_list = buf_size := by
    rw [Nat.mul_comm]; exact htot
  have hcnt : buf_size % 4 = 0 := by
    obtain ⟨q, hq⟩ := Nat.dvd_of_mod_eq_zero hD4
    have : buf_size = 4 * (total_descs xcdev.engine.transfer_list * q) := by
      rw [← htot, hq]; ring
    omega
  rw [char_bypass_read_valid D xcdev buf mem fault buf_size hchk hcnt hbuf hbar]
  obtain ⟨e1, e2, e3, _⟩ := transfer_loop_nofault D fault buf buf_size hbuf hf
    xcdev.engine.transfer_list (total_descs xcdev.engine.transfer_list) 0 0
    ⟨mem, 0, 0, [Event.spin_lock, Event.list_empty]⟩
    (by
      intro hpos
      have : D ≤ total_descs xcdev.engine.transfer_list * D := Nat.le_mul_of_pos_left D hpos
      omega)
    (by simp only [Nat.zero_add]; omega) (by simp only [Nat.zero_add]; omega)
  have hrc : (transfer_loop D fault buf buf_size xcdev.engine.transfer_list 0 0
      ⟨mem, 0, 0, [Event.spin_lock, Event.list_empty]⟩).1 = 0 := by
    rw [e1]
    cases xcdev.engine.transfer_list.getLast? with
    | none => rfl
    | some t => simp
  simp only [hrc, lt_self_iff_false, if_false, e2, e3, Nat.zero_add, Nat.min_self, htot2]
  refine ⟨to_ssize_t_of_lt _ (by omega), ?_⟩
  rw [List.take_of_length_le (by rw [all_descs_length])]
  have hlen : (concat_bytes (all_descs D xcdev.engine.transfer_list)).length = buf_size := by
    rw [concat_bytes_length D _ (all_descs_record_length D _), all_descs_length, htot2]
  have := map_blit_range mem (concat_bytes (all_descs D xcdev.engine.transfer_list))
  rw [hlen] at this
  exact this

/-- C3 at a concrete call: three records of 32 bytes, capacity 96. -/
theorem C3_read_exact_fit_witness :
    (char_bypass_read 32 three_desc_cdev 1 (fun _ => 0) (fun _ => 0) 96).ret = ((96 : Nat) : Int) ∧
    (List.range 96).map (char_bypass_read 32 three_desc_cdev 1 (fun _ => 0) (fun _ => 0) 96).mem
      = concat_bytes (all_descs 32 three_desc_cdev.engine.transfer_list) :=
  C3_read_exact_fit 32 three_desc_cdev 1 (fun _ => 0) (fun _ => 0) 96
    (by decide) (by decide) (by decide) (by decide) (by decide) (by decide) (by decide)
    (fun _ => rfl)

/-- C4: for a record size `D > 0` and a transfer list in which each transfer owns at least
one record and whose records total more than `buf_size` bytes (and less than `2 ^ 63`), a
read through a valid handle with a capacity that is a multiple of 4, a non-null buffer and
a bypass window, every copy succeeding, returns `-ENOMEM`; the bytes written into the
caller buffer number `D * (buf_size / D)`, and they are the first `buf_size / D` records of
the traversal, stored from offset 0 on. -/
theorem C4_read_short_buffer (D : Nat) (xcdev : xdma_cdev) (buf : Nat) (mem : Nat → Byte)
    (fault : Nat → Nat) (buf_size : Nat) (hchk : 0 ≤ xcdev.check) (hcnt : buf_size % 4 = 0)
    (hbuf : buf ≠ 0) (hbar : 0 ≤ xcdev.xdev.bypass_bar_idx) (hD : 0 < D)
    (hrec : ∀ t ∈ xcdev.engine.transfer_list, 1 ≤ t.desc_num)
    (htot : buf_size < D * total_descs xcdev.engine.transfer_list)
    (hfit : D * total_descs xcdev.engine.transfer_list < 2 ^ 63) (hf : ∀ c, fault c = 0) :
    (char_bypass_read D xcdev buf mem fault buf_size).ret = -ENOMEM ∧
    bytes_copied (char_bypass_read D xcdev buf mem fault buf_size).trace
      = D * (buf_size / D) ∧
    (char_bypass_read D xcdev buf mem fault buf_size).mem
      = blit mem 0 (concat_bytes ((all_descs D xcdev.engine.transfer_list).take (buf_size / D))) := by
  have hpos : 0 < total_descs xcdev.engine.transfer_list := by
    rcases Nat.eq_zero_or_pos (total_descs xcdev.engine.transfer_list) with h0 | h0
    · rw [h0] at htot; omega
    · exact h0
  have hDle : D ≤ D * total_descs xcdev.engine.transfer_list := Nat.le_mul_of_pos_right D hpos
  have hc1 : D * (buf_size / D) ≤ buf_size := Nat.mul_div_le buf_size D
  have hc2 : buf_size < D * (buf_size / D) + D := by
    have := Nat.lt_mul_div_succ buf_size hD
    rwa [Nat.mul_succ] at this
  have hcap : buf_size / D < total_descs xcdev.engine.transfer_list :=
    Nat.lt_of_mul_lt_mul_left (a := D) (by omega)
  rw [char_bypass_read_valid D xcdev buf mem fault buf_size hchk hcnt hbuf hbar]
  obtain ⟨e1, e2, _, e4⟩ := transfer_loop_nofault D fault buf buf_size hbuf hf
    xcdev.engine.transfer_list (buf_size / D) 0 0
    ⟨mem, 0, 0, [Event.spin_lock, Event.list_empty]⟩
    (by intro _; omega)
    (by simp only [Nat.zero_add]; omega) (by simp only [Nat.zero_add]; omega)
  have hne : xcdev.engine.transfer_list ≠ [] := by
    intro h
    rw [h] at hpos
    simp [total_descs] at hpos
  have hrc : (transfer_loop D fault buf buf_size xcdev.engine.transfer_list 0 0
      ⟨mem, 0, 0, [Event.spin_lock, Event.list_empty]⟩).1 = -ENOMEM := by
    rw [e1, List.getLast?_eq_getLast _ hne]
    have h1 := hrec _ (List.getLast_mem hne)
    have h2 : 0 < (xcdev.engine.transfer_list.getLast hne).desc_num := by omega
    simp [h2, hcap]
  have hneg : -ENOMEM < 0 := by decide
  simp only [hrc, hneg, if_true, e2, bytes_copied_append, e4]
  refine ⟨trivial, ?_, trivial⟩
  have hmin : min (total_descs xcdev.engine.transfer_list) (buf_size / D) = buf_size / D := by
    omega
  simp [bytes_copied, hmin]

/-- C4 at a concrete call: three records of 32 bytes, capacity 40. -/
theorem C4_read_short_buffer_witness :
    (char_bypass_read 32 three_desc_cdev 1 (fun _ => 0) (fun _ => 0) 40).ret = -ENOMEM ∧
    bytes_copied (char_bypass_read 32 three_desc_cdev 1 (fun _ => 0) (fun _ => 0) 40).trace
      = 32 * (40 / 32) ∧
    (char_bypass_read 32 three_desc_cdev 1 (fun _ => 0) (fun _ => 0) 40).mem
      = blit (fun _ => 0) 0
          (concat_bytes ((all_descs 32 three_desc_cdev.engine.transfer_list).take (40 / 32))) :=
  C4_read_short_buffer 32 three_desc_cdev 1 (fun _ => 0) (fun _ => 0) 40
    (by decide) (by decide) (by decide) (by decide) (by decide)
    (by intro t ht; simp [three_desc_cdev] at ht; rcases ht with rfl | rfl <;> decide)
    (by decide) (by decide) (fun _ => rfl)

/-! ## Claims on the validation of a call -/

/-- C5: for every declared size that is not a multiple of 4, whatever the buffer pointer,
the bypass BAR index and the transfer list, `char_bypass_read` and `char_bypass_write`
(called through a handle that passes `xcdev_check`) return `-EINVAL` with an empty trace:
no lock is taken, the transfer list is not read, the caller buffer is left as it was and
no register is written. -/
theorem C5_misaligned_size_is_einval (fuel D : Nat) (xcdev : xdma_cdev) (buf : Nat)
    (mem : Nat → Byte) (fault : Nat → Nat) (ubuf : Nat → Option Nat) (count : Nat)
    (hchk : 0 ≤ xcdev.check) (hcnt : count % 4 ≠ 0) :
    char_bypass_read D xcdev buf mem fault count = ⟨-EINVAL, mem, 0, []⟩ ∧
    char_bypass_write fuel xcdev buf ubuf count = some ⟨-EINVAL, []⟩ := by
  have h1 : ¬ xcdev.check < 0 := by omega
  constructor
  · simp [char_bypass_read, h1, land_three, hcnt]
  · simp [char_bypass_write, h1, land_three, hcnt]

/-- C5 at a concrete call: a size of 6 bytes. -/
theorem C5_misaligned_size_is_einval_witness :
    char_bypass_read 32 sample_cdev 1 (fun _ => 0) (fun _ => 0) 6
      = ⟨-EINVAL, fun _ => 0, 0, []⟩ ∧
    char_bypass_write 5 sample_cdev 1 (fun _ => some 0) 6 = some ⟨-EINVAL, []⟩ :=
  C5_misaligned_size_is_einval 5 32 sample_cdev 1 (fun _ => 0) (fun _ => 0) (fun _ => some 0) 6
    (by decide) (by decide)

/-- C6 fails as stated: on a device without bypass BAR, a call with a null buffer returns
`-EINVAL`, and so does a call with a size that is not a multiple of 4; neither returns
`-ENODEV`. -/
theorem C6_counterexample :
    (char_bypass_read 32 nobypass_cdev 0 (fun _ => 0) (fun _ => 0) 8).ret = -EINVAL ∧
    (char_bypass_write 2 nobypass_cdev 0 (fun _ => some 0) 8).map WResult.ret
      = some (-EINVAL) ∧
    (char_bypass_read 32 nobypass_cdev 1 (fun _ => 0) (fun _ => 0) 6).ret = -EINVAL ∧
    (char_bypass_write 2 nobypass_cdev 1 (fun _ => some 0) 6).map WResult.ret
      = some (-EINVAL) ∧
    nobypass_cdev.xdev.bypass_bar_idx < 0 ∧ -EINVAL ≠ -ENODEV := by
  refine ⟨by decide, by decide, by decide, by decide, by decide, by decide⟩

/-- C6, amended: on a device without bypass BAR (`bypass_bar_idx < 0`), through a handle
that passes `xcdev_check`, both operations return `-ENODEV` for every non-null buffer and
every declared size that is a multiple of 4; and for every buffer pointer and every size
they return with an empty trace and an untouched caller buffer, that is before any access
to the lock, the transfer list or the register. -/
theorem C6_no_bypass_is_enodev (fuel D : Nat) (xcdev : xdma_cdev) (buf : Nat)
    (mem : Nat → Byte) (fault : Nat → Nat) (ubuf : Nat → Option Nat) (count : Nat)
    (hchk : 0 ≤ xcdev.check) (hbar : xcdev.xdev.bypass_bar_idx < 0) :
    (count % 4 = 0 ∧ buf ≠ 0 →
      char_bypass_read D xcdev buf mem fault count = ⟨-ENODEV, mem, 0, []⟩ ∧
      char_bypass_write fuel xcdev buf ubuf count = some ⟨-ENODEV, []⟩) ∧
    (char_bypass_read D xcdev buf mem fault count).trace = [] ∧
    (char_bypass_read D xcdev buf mem fault count).mem = mem ∧
    (char_bypass_write fuel xcdev buf ubuf count).map WResult.trace = some [] := by
  have h1 : ¬ xcdev.check < 0 := by omega
  refine ⟨?_, ?_, ?_, ?_⟩
  · rintro ⟨hcnt, hbuf⟩
    constructor
    · simp [char_bypass_read, h1, land_three, hcnt, hbuf, hbar]
    · simp [char_bypass_write, h1, land_three, hcnt, hbuf, hbar]
  · simp only [char_bypass_read, h1, hbar, if_true, if_false]
    split_ifs <;> rfl
  · simp only [char_bypass_read, h1, hbar, if_true, if_false]
    split_ifs <;> rfl
  · simp only [char_bypass_write, h1, hbar, if_true, if_false]
    split_ifs <;> rfl

/-- C6 (amended) at a concrete call. -/
theorem C6_no_bypass_is_enodev_witness :
    (8 % 4 = 0 ∧ 1 ≠ 0 →
      char_bypass_read 32 nobypass_cdev 1 (fun _ => 0) (fun _ => 0) 8
        = ⟨-ENODEV, fun _ => 0, 0, []⟩ ∧
      char_bypass_write 2 nobypass_cdev 1 (fun _ => some 0) 8 = some ⟨-ENODEV, []⟩) ∧
    (char_bypass_read 32 nobypass_cdev 1 (fun _ => 0) (fun _ => 0) 8).trace = [] ∧
    (char_bypass_read 32 nobypass_cdev 1 (fun _ => 0) (fun _ => 0) 8).mem = (fun _ => 0) ∧
    (char_bypass_write 2 nobypass_cdev 1 (fun _ => some 0) 8).map WResult.trace = some [] :=
  C6_no_bypass_is_enodev 2 32 nobypass_cdev 1 (fun _ => 0) (fun _ => 0) (fun _ => some 0) 8
    (by decide) (by decide)

/-- C7: for every call through a handle that passes `xcdev_check`, with a null buffer
pointer and a declared size that is a multiple of 4 (0 included), `char_bypass_read` and
`char_bypass_write` return `-EINVAL` whatever the bypass BAR index, with an empty trace: no
lock is taken, the transfer list is not read and no register is written. -/
theorem C7_null_buffer_is_einval (fuel D : Nat) (xcdev : xdma_cdev) (mem : Nat → Byte)
    (fault : Nat → Nat) (ubuf : Nat → Option Nat) (count : Nat) (hchk : 0 ≤ xcdev.check)
    (hcnt : count % 4 = 0) :
    char_bypass_read D xcdev 0 mem fault count = ⟨-EINVAL, mem, 0, []⟩ ∧
    char_bypass_write fuel xcdev 0 ubuf count = some ⟨-EINVAL, []⟩ := by
  have h1 : ¬ xcdev.check < 0 := by omega
  constructor
  · simp [char_bypass_read, h1, land_three, hcnt]
  · simp [char_bypass_write, h1, land_three, hcnt]

/-- C7 at concrete calls: size 0 on a bypass-capable device. -/
theorem C7_null_buffer_is_einval_witness :
    char_bypass_read 32 sample_cdev 0 (fun _ => 0) (fun _ => 0) 0
      = ⟨-EINVAL, fun _ => 0, 0, []⟩ ∧
    char_bypass_write 2 sample_cdev 0 (fun _ => some 0) 0 = some ⟨-EINVAL, []⟩ :=
  C7_null_buffer_is_einval 2 32 sample_cdev (fun _ => 0) (fun _ => 0) (fun _ => some 0) 0
    (by decide) (by decide)

/-! ## Claims on the result of a read -/

/-- C8: a read through a valid handle with a capacity that is a multiple of 4, a non-null
buffer and a bypass window, on an engine whose transfer list is empty, returns 0; the
caller buffer is unchanged and the trace holds the lock, the emptiness test and the
unlock only (no `copy_to_user`). -/
theorem C8_read_empty_list (D : Nat) (xcdev : xdma_cdev) (buf : Nat) (mem : Nat → Byte)
    (fault : Nat → Nat) (count : Nat) (hchk : 0 ≤ xcdev.check) (hcnt : count % 4 = 0)
    (hbuf : buf ≠ 0) (hbar : 0 ≤ xcdev.xdev.bypass_bar_idx)
    (hl : xcdev.engine.transfer_list = []) :
    char_bypass_read D xcdev buf mem fault count
      = ⟨0, mem, 0, [Event.spin_lock, Event.list_empty, Event.spin_unlock]⟩ := by
  have h1 : ¬ xcdev.check < 0 := by omega
  have h2 : ¬ xcdev.xdev.bypass_bar_idx < 0 := by omega
  simp [char_bypass_read, h1, h2, land_three, hcnt, hbuf, hl, to_ssize_t]

/-- C8 at a concrete call. -/
theorem C8_read_empty_list_witness :
    char_bypass_read 32 sample_cdev 1 (fun _ => 0) (fun _ => 0) 64
      = ⟨0, fun _ => 0, 0, [Event.spin_lock, Event.list_empty, Event.spin_unlock]⟩ :=
  C8_read_empty_list 32 sample_cdev 1 (fun _ => 0) (fun _ => 0) 64
    (by decide) (by decide) (by decide) (by decide) rfl

/-- C9: for a read through a valid handle, with a capacity that is a multiple of 4, a
non-null buffer and a bypass window, over a transfer list in which each transfer owns at
least one record and whose records take less than `2 ^ 63` bytes, with `buf_size + D`
representable in `size_t`, and for every pattern of copy faults: if a condition was recorded
for some record (capacity test failed or copy failed), the value returned is negative and is
the condition recorded for the last record visited; if none was recorded, the value returned
is the final offset, which is `D` times the number of records. -/
theorem C9_read_status (D : Nat) (xcdev : xdma_cdev) (buf : Nat) (mem : Nat → Byte)
    (fault : Nat → Nat) (buf_size : Nat) (hchk : 0 ≤ xcdev.check) (hcnt : buf_size % 4 = 0)
    (hbuf : buf ≠ 0) (hbar : 0 ≤ xcdev.xdev.bypass_bar_idx)
    (hrec : ∀ t ∈ xcdev.engine.transfer_list, 1 ≤ t.desc_num)
    (hB : buf_size + D < 2 ^ 64) (hfit : D * total_descs xcdev.engine.transfer_list < 2 ^ 63) :
    ((∃ c ∈ recorded (char_bypass_read D xcdev buf mem fault buf_size).trace, c ≠ none) →
      (char_bypass_read D xcdev buf mem fault buf_size).ret < 0 ∧
      (recorded (char_bypass_read D xcdev buf mem fault buf_size).trace).getLast?
        = some (some (char_bypass_read D xcdev buf mem fault buf_size).ret)) ∧
    ((∀ c ∈ recorded (char_bypass_read D xcdev buf mem fault buf_size).trace, c = none) →
      (char_bypass_read D xcdev buf mem fault buf_size).ret
        = ((char_bypass_read D xcdev buf mem fault buf_size).buf_offset : Int) ∧
      (char_bypass_read D xcdev buf mem fault buf_size).buf_offset
        = D * total_descs xcdev.engine.transfer_list) := by
  rw [char_bypass_read_valid D xcdev buf mem fault buf_size hchk hcnt hbuf hbar]
  have hs := transfer_loop_settled D fault buf buf_size hbuf hB xcdev.engine.transfer_list 0 0
    ⟨mem, 0, 0, [Event.spin_lock, Event.list_empty]⟩ hrec
    ⟨Nat.zero_le _, Or.inl ⟨by simp [recorded], by simp [recorded], rfl⟩⟩
  have hlen := transfer_loop_recorded_length D fault buf buf_size hbuf
    xcdev.engine.transfer_list 0 0 ⟨mem, 0, 0, [Event.spin_lock, Event.list_empty]⟩
  generalize transfer_loop D fault buf buf_size xcdev.engine.transfer_list 0 0
    ⟨mem, 0, 0, [Event.spin_lock, Event.list_empty]⟩ = r at hs hlen
  have hun : recorded (r.2.trace ++ [Event.spin_unlock]) = recorded r.2.trace := by
    simp [recorded_append, recorded]
  simp only [hun]
  simp only [recorded, List.length_nil, Nat.zero_add] at hlen
  obtain ⟨hle, ⟨hall, hoff, hrc⟩ | ⟨hst, hlast, hneg⟩⟩ := hs
  · constructor
    · rintro ⟨c, hc, hne⟩
      exact absurd (hall c hc) hne
    · intro _
      have hoff2 : r.2.buf_offset = D * total_descs xcdev.engine.transfer_list := by
        rw [hoff, hlen]
      rw [hrc]
      simp only [lt_self_iff_false, if_false]
      exact ⟨to_ssize_t_of_lt _ (by rw [hoff2]; exact hfit), hoff2⟩
  · constructor
    · intro _
      rw [if_pos hneg]
      exact ⟨hneg, hlast⟩
    · intro hall
      have hmem : some r.1 ∈ recorded r.2.trace := List.mem_of_getLast?_eq_some hlast
      exact absurd (hall _ hmem) (by simp)

/-- C9 at a concrete call: three records of 32 bytes, capacity 96, the second copy failing. -/
theorem C9_read_status_witness :
    ((∃ c ∈ recorded (char_bypass_read 32 three_desc_cdev 1 (fun _ => 0)
          (fun c => if c = 1 then 32 else 0) 96).trace, c ≠ none) →
      (char_bypass_read 32 three_desc_cdev 1 (fun _ => 0)
          (fun c => if c = 1 then 32 else 0) 96).ret < 0 ∧
      (recorded (char_bypass_read 32 three_desc_cdev 1 (fun _ => 0)
          (fun c => if c = 1 then 32 else 0) 96).trace).getLast?
        = some (some (char_bypass_read 32 three_desc_cdev 1 (fun _ => 0)
          (fun c => if c = 1 then 32 else 0) 96).ret)) ∧
    ((∀ c ∈ recorded (char_bypass_read 32 three_desc_cdev 1 (fun _ => 0)
          (fun c => if c = 1 then 32 else 0) 96).trace, c = none) →
      (char_bypass_read 32 three_desc_cdev 1 (fun _ => 0)
          (fun c => if c = 1 then 32 else 0) 96).ret
        = ((char_bypass_read 32 three_desc_cdev 1 (fun _ => 0)
          (fun c => if c = 1 then 32 else 0) 96).buf_offset : Int) ∧
      (char_bypass_read 32 three_desc_cdev 1 (fun _ => 0)
          (fun c => if c = 1 then 32 else 0) 96).buf_offset
        = 32 * total_descs three_desc_cdev.engine.transfer_list) :=
  C9_read_status 32 three_desc_cdev 1 (fun _ => 0) (fun c => if c = 1 then 32 else 0) 96
    (by decide) (by decide) (by decide) (by decide)
    (by intro t ht; simp [three_desc_cdev] at ht; rcases ht with rfl | rfl <;> decide)
    (by norm_num) (by decide)

/-- C10 fails as stated: with one outstanding descriptor (of 32 bytes), a read of capacity 0
through a valid handle, with a non-null buffer and a bypass window, returns `-ENOMEM`. -/
theorem C10_counterexample :
    (char_bypass_read 32 one_desc_cdev 1 (fun _ => 0) (fun _ => 0) 0).ret = -ENOMEM ∧
    0 ≤ one_desc_cdev.check ∧ 0 ≤ one_desc_cdev.xdev.bypass_bar_idx ∧ -ENOMEM ≠ (0 : Int) := by
  refine ⟨by decide, by decide, by decide, by decide⟩

/-- C10, amended: for a record size `0 < D < 2 ^ 64`, a read of capacity 0 through a valid
handle, with a non-null buffer and a bypass window, copies nothing into the caller buffer,
whatever the transfer list and the faults; it returns 0 when the list holds no record (in
particular when it is empty), and `-ENOMEM` when the list is not empty and each of its
transfers owns at least one record. -/
theorem C10_read_capacity_zero (D : Nat) (xcdev : xdma_cdev) (buf : Nat) (mem : Nat → Byte)
    (fault : Nat → Nat) (hchk : 0 ≤ xcdev.check) (hbuf : buf ≠ 0)
    (hbar : 0 ≤ xcdev.xdev.bypass_bar_idx) (hD : 0 < D) (hD64 : D < 2 ^ 64) :
    (total_descs xcdev.engine.transfer_list = 0 →
      (char_bypass_read D xcdev buf mem fault 0).ret = 0) ∧
    (xcdev.engine.transfer_list ≠ [] ∧ (∀ t ∈ xcdev.engine.transfer_list, 1 ≤ t.desc_num) →
      (char_bypass_read D xcdev buf mem fault 0).ret = -ENOMEM) ∧
    (char_bypass_read D xcdev buf mem fault 0).mem = mem ∧
    bytes_copied (char_bypass_read D xcdev buf mem fault 0).trace = 0 := by
  rw [char_bypass_read_valid D xcdev buf mem fault 0 hchk (by decide) hbuf hbar]
  obtain ⟨e1, e2, e3, e4⟩ := transfer_loop_stuck D fault buf 0 hbuf xcdev.engine.transfer_list 0 0
    ⟨mem, 0, 0, [Event.spin_lock, Event.list_empty]⟩ (by simpa using hD) (by simpa using hD64)
  simp only [e1, e2, e3, bytes_copied_append, e4]
  refine ⟨?_, ?_, trivial, by simp [bytes_copied]⟩
  · intro htot
    cases hl : xcdev.engine.transfer_list.getLast? with
    | none => simp [to_ssize_t]
    | some t =>
      have hle := toNat_le_total_descs _ t (List.mem_of_getLast?_eq_some hl)
      have ht : ¬ 0 < t.desc_num := by omega
      simp [ht, to_ssize_t]
  · rintro ⟨hne, hrec⟩
    rw [List.getLast?_eq_getLast _ hne]
    have h1 := hrec _ (List.getLast_mem hne)
    have ht : 0 < (xcdev.engine.transfer_list.getLast hne).desc_num := by omega
    simp [ht, ENOMEM]

/-- C10 (amended) at a concrete call: one outstanding descriptor of 32 bytes. -/
theorem C10_read_capacity_zero_witness :
    (total_descs one_desc_cdev.engine.transfer_list = 0 →
      (char_bypass_read 32 one_desc_cdev 1 (fun _ => 0) (fun _ => 0) 0).ret = 0) ∧
    (one_desc_cdev.engine.transfer_list ≠ [] ∧
        (∀ t ∈ one_desc_cdev.engine.transfer_list, 1 ≤ t.desc_num) →
      (char_bypass_read 32 one_desc_cdev 1 (fun _ => 0) (fun _ => 0) 0).ret = -ENOMEM) ∧
    (char_bypass_read 32 one_desc_cdev 1 (fun _ => 0) (fun _ => 0) 0).mem = (fun _ => 0) ∧
    bytes_copied (char_bypass_read 32 one_desc_cdev 1 (fun _ => 0) (fun _ => 0) 0).trace = 0 :=
  C10_read_capacity_zero 32 one_desc_cdev 1 (fun _ => 0) (fun _ => 0)
    (by decide) (by decide) (by decide) (by decide) (by norm_num)

/-! ## Claims on the effects and the locking of a call -/

/-- C11: for every input and every outcome, `char_bypass_read` writes no register (its trace
has no `iowrite32`), and every event of its trace is a lock operation, the emptiness test of
the transfer list, the visit of a list entry, a `copy_to_user` into the caller buffer or a
failed capacity test: the transfer list and the descriptor records are only read, and the
caller buffer is the only memory written. -/
theorem C11_read_frame (D : Nat) (xcdev : xdma_cdev) (buf : Nat) (mem : Nat → Byte)
    (fault : Nat → Nat) (count : Nat) :
    reg_writes (char_bypass_read D xcdev buf mem fault count).trace = [] ∧
    ∀ e ∈ (char_bypass_read D xcdev buf mem fault count).trace,
      is_lock_event e = true ∨ e = Event.list_empty ∨ is_read_body e = true := by
  rcases char_bypass_read_trace D xcdev buf mem fault count with h | ⟨ev, h, hev⟩
  · rw [h]
    exact ⟨rfl, by simp⟩
  · rw [h]
    constructor
    · have e1 : Event.spin_lock :: Event.list_empty :: ev ++ [Event.spin_unlock]
          = [Event.spin_lock, Event.list_empty] ++ (ev ++ [Event.spin_unlock]) := by simp
      rw [e1, reg_writes_append, reg_writes_append, reg_writes_read_body ev hev]
      rfl
    · intro e he
      simp only [List.cons_append, List.mem_cons, List.mem_append, List.not_mem_nil,
        or_false] at he
      rcases he with rfl | rfl | he | rfl
      · exact Or.inl rfl
      · exact Or.inr (Or.inl rfl)
      · exact Or.inr (Or.inr (hev e he))
      · exact Or.inl rfl

/-- C15: a call of `char_bypass_read` or `char_bypass_write` that passes validation (valid
handle, size a multiple of 4, non-null buffer, bypass window) has a trace that starts with
the one `spin_lock`, ends with the one `spin_unlock` and has no lock operation in between,
on every path (for the write also when a word cannot be read, for the read whatever `rc`
is): every list read, buffer copy and register write lies between the two. A call that fails
validation has an empty trace. The write is given fuel for `count / 4` iterations. -/
theorem C15_lock_bracket (fuel D : Nat) (xcdev : xdma_cdev) (buf : Nat) (mem : Nat → Byte)
    (fault : Nat → Nat) (ubuf : Nat → Option Nat) (count : Nat) (hc : count < 2 ^ 64)
    (hfuel : count / 4 ≤ fuel) :
    ((0 ≤ xcdev.check ∧ count % 4 = 0 ∧ buf ≠ 0 ∧ 0 ≤ xcdev.xdev.bypass_bar_idx) →
      (∃ mid, (char_bypass_read D xcdev buf mem fault count).trace
          = Event.spin_lock :: mid ++ [Event.spin_unlock] ∧
        ∀ e ∈ mid, is_lock_event e = false) ∧
      (∃ w mid, char_bypass_write fuel xcdev buf ubuf count = some w ∧
        w.trace = Event.spin_lock :: mid ++ [Event.spin_unlock] ∧
        ∀ e ∈ mid, is_lock_event e = false)) ∧
    (¬ (0 ≤ xcdev.check ∧ count % 4 = 0 ∧ buf ≠ 0 ∧ 0 ≤ xcdev.xdev.bypass_bar_idx) →
      (char_bypass_read D xcdev buf mem fault count).trace = [] ∧
      (char_bypass_write fuel xcdev buf ubuf count).map WResult.trace = some []) := by
  constructor
  · rintro ⟨hchk, hcnt, hbuf, hbar⟩
    constructor
    · rw [char_bypass_read_valid D xcdev buf mem fault count hchk hcnt hbuf hbar]
      obtain ⟨ev, e1, e2⟩ := transfer_loop_trace D fault buf count xcdev.engine.transfer_list 0 0
        ⟨mem, 0, 0, [Event.spin_lock, Event.list_empty]⟩
      refine ⟨Event.list_empty :: ev, by rw [e1]; simp, ?_⟩
      intro e he
      simp only [List.mem_cons] at he
      rcases he with rfl | he
      · rfl
      · exact not_lock_of_read_body e (e2 e he)
    · rw [char_bypass_write_valid fuel xcdev buf ubuf count hchk hcnt hbuf hbar]
      obtain ⟨s', ev, h1, h2, h3, _⟩ := write_loop_general ubuf (bypass_addr xcdev) count hc
        (count / 4) fuel ⟨0, 0, [Event.spin_lock]⟩ hfuel (by simp only; omega)
      rw [h1]
      exact ⟨_, ev, rfl, by rw [h2]; simp, fun e he => not_lock_of_write_body e (h3 e he)⟩
  · intro hinv
    have hcase : xcdev.check < 0 ∨ count &&& 3 ≠ 0 ∨ buf = 0 ∨ xcdev.xdev.bypass_bar_idx < 0 := by
      by_contra hcon
      simp only [not_or, not_lt, ne_eq, not_not, land_three] at hcon
      exact hinv ⟨hcon.1, hcon.2.1, hcon.2.2.1, hcon.2.2.2⟩
    constructor
    · unfold char_bypass_read
      split_ifs with h1 h2 h3 h4 h5 <;> first | rfl | (exfalso; tauto)
    · unfold char_bypass_write
      split_ifs with h1 h2 h3 h4 <;> first | rfl | (exfalso; tauto)

/-- C15 at a concrete pair of calls: three descriptors of 32 bytes read into 96 bytes, and a
write of four words. -/
theorem C15_lock_bracket_witness :
    ((0 ≤ three_desc_cdev.check ∧ 96 % 4 = 0 ∧ 1 ≠ 0 ∧ 0 ≤ three_desc_cdev.xdev.bypass_bar_idx) →
      (∃ mid, (char_bypass_read 32 three_desc_cdev 1 (fun _ => 0) (fun _ => 0) 96).trace
          = Event.spin_lock :: mid ++ [Event.spin_unlock] ∧
        ∀ e ∈ mid, is_lock_event e = false) ∧
      (∃ w mid, char_bypass_write 24 three_desc_cdev 1 (fun _ => some 5) 96 = some w ∧
        w.trace = Event.spin_lock :: mid ++ [Event.spin_unlock] ∧
        ∀ e ∈ mid, is_lock_event e = false)) ∧
    (¬ (0 ≤ three_desc_cdev.check ∧ 96 % 4 = 0 ∧ 1 ≠ 0 ∧
          0 ≤ three_desc_cdev.xdev.bypass_bar_idx) →
      (char_bypass_read 32 three_desc_cdev 1 (fun _ => 0) (fun _ => 0) 96).trace = [] ∧
      (char_bypass_write 24 three_desc_cdev 1 (fun _ => some 5) 96).map WResult.trace
        = some []) :=
  C15_lock_bracket 24 32 three_desc_cdev 1 (fun _ => 0) (fun _ => 0) (fun _ => some 5) 96
    (by norm_num) (by decide)

/-! ## Further claims on the write path -/

/-- C13: for every call of `char_bypass_write` that passes validation (valid handle, `count`
a multiple of 4, non-null buffer, bypass window), whatever words of the buffer are readable,
the values written to the bypass register are, in order, the consecutive words of the
buffer at offsets 0, 4, 8, ... up to but not including the first one that cannot be read
(all `count / 4` of them when every word is readable). Fuel for `count / 4` iterations is
enough. -/
theorem C13_write_word_sequence (fuel : Nat) (xcdev : xdma_cdev) (buf : Nat)
    (ubuf : Nat → Option Nat) (count : Nat) (hchk : 0 ≤ xcdev.check) (hcnt : count % 4 = 0)
    (hbuf : buf ≠ 0) (hbar : 0 ≤ xcdev.xdev.bypass_bar_idx) (hc : count < 2 ^ 64)
    (hfuel : count / 4 ≤ fuel) :
    (char_bypass_write fuel xcdev buf ubuf count).map (fun r => reg_writes r.trace)
      = some ((readable_words ubuf 0 (count / 4)).map (fun v => (v, bypass_addr xcdev))) := by
  rw [char_bypass_write_valid fuel xcdev buf ubuf count hchk hcnt hbuf hbar]
  obtain ⟨s', ev, h1, h2, _, h4⟩ := write_loop_general ubuf (bypass_addr xcdev) count hc
    (count / 4) fuel ⟨0, 0, [Event.spin_lock]⟩ hfuel (by simp only; omega)
  rw [h1]
  simp only [Option.map_some', h2, reg_writes_bracket, h4]

/-- C13 at a concrete call: four words declared, the third one unreadable. -/
theorem C13_write_word_sequence_witness :
    (char_bypass_write 4 sample_cdev 1
        (fun off => if off = 8 then none else some (off + 7)) 16).map
        (fun r => reg_writes r.trace)
      = some ((readable_words (fun off => if off = 8 then none else some (off + 7)) 0 (16 / 4)).map
          (fun v => (v, bypass_addr sample_cdev))) :=
  C13_write_word_sequence 4 sample_cdev 1 (fun off => if off = 8 then none else some (off + 7)) 16
    (by decide) (by decide) (by decide) (by decide) (by norm_num) (by decide)

/-- C18: for every write of `k` readable words (`count = 4 * k`) that passes validation, the
value returned is `count` converted to a 32-bit `int` (the sign extension of
`count mod 2 ^ 32`); it is equal to `count` exactly when `count < 2 ^ 31`, and for
`count >= 2 ^ 31` it is smaller than `count`, although `k = count / 4` words were written
to the register. -/
theorem C18_write_return_through_int (fuel : Nat) (xcdev : xdma_cdev) (buf : Nat)
    (ubuf : Nat → Option Nat) (k : Nat) (hchk : 0 ≤ xcdev.check) (hbuf : buf ≠ 0)
    (hbar : 0 ≤ xcdev.xdev.bypass_bar_idx) (hk : 4 * k < 2 ^ 64) (hfuel : k ≤ fuel)
    (hr : ∀ i, i < k → (ubuf (4 * i)).isSome = true) :
    (char_bypass_write fuel xcdev buf ubuf (4 * k)).map WResult.ret = some (to_int (4 * k)) ∧
    (to_int (4 * k) = ((4 * k : Nat) : Int) ↔ 4 * k < 2 ^ 31) ∧
    (2 ^ 31 ≤ 4 * k → to_int (4 * k) < ((4 * k : Nat) : Int)) ∧
    (char_bypass_write fuel xcdev buf ubuf (4 * k)).map (fun r => (reg_writes r.trace).length)
      = some k := by
  rw [char_bypass_write_readable fuel xcdev buf ubuf k hchk hbuf hbar hk hfuel hr]
  refine ⟨rfl, to_int_eq_iff _, to_int_lt_of_ge _, ?_⟩
  simp only [Option.map_some', reg_writes_write_trace _ _ _ [Event.spin_unlock] rfl,
    List.length_map, List.length_range]

/-- C18 at a concrete call: two readable words. -/
theorem C18_write_return_through_int_witness :
    (char_bypass_write 2 sample_cdev 1 (fun _ => some 5) (4 * 2)).map WResult.ret
      = some (to_int (4 * 2)) ∧
    (to_int (4 * 2) = ((4 * 2 : Nat) : Int) ↔ 4 * 2 < 2 ^ 31) ∧
    (2 ^ 31 ≤ 4 * 2 → to_int (4 * 2) < ((4 * 2 : Nat) : Int)) ∧
    (char_bypass_write 2 sample_cdev 1 (fun _ => some 5) (4 * 2)).map
        (fun r => (reg_writes r.trace).length) = some 2 :=
  C18_write_return_through_int 2 sample_cdev 1 (fun _ => some 5) 2
    (by decide) (by decide) (by decide) (by norm_num) (by decide) (fun _ _ => rfl)

/-! ## Claims on a read in which a copy fails -/

/-- C14: for a read that passes validation, over a transfer list in which each transfer owns
at least one record, with `buf_size + D` representable in `size_t`, in which some
`copy_to_user` fails: the visits are copies that succeeded, then the first failed copy, then
`b` failed capacity tests, all at offset `buf_size` (no later record is copied, every later
record is visited); the visits number as many as the records; the final offset is
`buf_size`; and the value returned is `-EINVAL` when the failed copy is the last visit
(`b = 0`) and `-ENOMEM` when a record is visited after it. -/
theorem C14_read_after_fault (D : Nat) (xcdev : xdma_cdev) (buf : Nat) (mem : Nat → Byte)
    (fault : Nat → Nat) (buf_size : Nat) (hchk : 0 ≤ xcdev.check) (hcnt : buf_size % 4 = 0)
    (hbuf : buf ≠ 0) (hbar : 0 ≤ xcdev.xdev.bypass_bar_idx)
    (hrec : ∀ t ∈ xcdev.engine.transfer_list, 1 ≤ t.desc_num)
    (hB : buf_size + D < 2 ^ 64)
    (hfault : ∃ off src err,
      Event.copy_to_user off src err ∈ (char_bypass_read D xcdev buf mem fault buf_size).trace ∧
      err ≠ 0) :
    ∃ pre off src err b,
      visits (char_bypass_read D xcdev buf mem fault buf_size).trace
        = pre ++ Event.copy_to_user off src err :: List.replicate b (Event.no_room buf_size) ∧
      err ≠ 0 ∧ (∀ e ∈ pre, is_good_copy e = true) ∧
      pre.length + 1 + b = total_descs xcdev.engine.transfer_list ∧
      (char_bypass_read D xcdev buf mem fault buf_size).buf_offset = buf_size ∧
      (char_bypass_read D xcdev buf mem fault buf_size).ret
        = (if b = 0 then -EINVAL else -ENOMEM) := by
  rw [char_bypass_read_valid D xcdev buf mem fault buf_size hchk hcnt hbuf hbar] at hfault ⊢
  have hs := transfer_loop_settled D fault buf buf_size hbuf hB xcdev.engine.transfer_list 0 0
    ⟨mem, 0, 0, [Event.spin_lock, Event.list_empty]⟩ hrec (settled_init D buf_size mem)
  have hp := transfer_loop_phase D fault buf buf_size hbuf hB xcdev.engine.transfer_list 0 0
    ⟨mem, 0, 0, [Event.spin_lock, Event.list_empty]⟩ (read_phase_init D buf_size mem)
  have hlen := transfer_loop_recorded_length D fault buf buf_size hbuf
    xcdev.engine.transfer_list 0 0 ⟨mem, 0, 0, [Event.spin_lock, Event.list_empty]⟩
  generalize transfer_loop D fault buf buf_size xcdev.engine.transfer_list 0 0
    ⟨mem, 0, 0, [Event.spin_lock, Event.list_empty]⟩ = r at hs hp hlen hfault
  simp only [recorded, List.length_nil, Nat.zero_add] at hlen
  obtain ⟨off0, src0, err0, hmem0, herr0⟩ := hfault
  have hmem1 : Event.copy_to_user off0 src0 err0 ∈ r.2.trace := by
    simp only [List.mem_append, List.mem_singleton] at hmem0
    rcases hmem0 with h | h
    · exact h
    · cases h
  obtain ⟨hoff, _, pre, off, src, err, b, hv, herr, hpre⟩ :=
    read_phase_of_fault D buf_size r.2 hp off0 src0 err0 hmem1 herr0
  have hrecd : recorded r.2.trace
      = pre.map cond_of ++ some (-EINVAL) :: List.replicate b (some (-ENOMEM)) := by
    rw [recorded_eq_map_visits, hv]
    simp [cond_of, herr]
  have hlast := getLast?_fault_shape (pre.map cond_of) b
  rw [← hrecd] at hlast
  refine ⟨pre, off, src, err, b, ?_, herr, hpre, ?_, hoff, ?_⟩
  · simp only [visits_append, visits, List.append_nil]
    exact hv
  · rw [← hlen, hrecd]
    simp
    omega
  · obtain ⟨_, ⟨hall, _, _⟩ | ⟨_, hl2, hneg⟩⟩ := hs
    · have hm : some (-EINVAL) ∈ recorded r.2.trace := by
        rw [hrecd]; simp
      exact absurd (hall _ hm) (by simp)
    · rw [hlast] at hl2
      have hrc : r.1 = if b = 0 then -EINVAL else -ENOMEM := by
        have := Option.some.inj (Option.some.inj hl2)
        exact this.symm
      simp only
      rw [if_pos hneg, hrc]

/-- C14 at a concrete call: three records of 32 bytes, capacity 96, the second copy
failing. -/
theorem C14_read_after_fault_witness :
    ∃ pre off src err b,
      visits (char_bypass_read 32 three_desc_cdev 1 (fun _ => 0)
          (fun c => if c = 1 then 32 else 0) 96).trace
        = pre ++ Event.copy_to_user off src err :: List.replicate b (Event.no_room 96) ∧
      err ≠ 0 ∧ (∀ e ∈ pre, is_good_copy e = true) ∧
      pre.length + 1 + b = total_descs three_desc_cdev.engine.transfer_list ∧
      (char_bypass_read 32 three_desc_cdev 1 (fun _ => 0)
          (fun c => if c = 1 then 32 else 0) 96).buf_offset = 96 ∧
      (char_bypass_read 32 three_desc_cdev 1 (fun _ => 0)
          (fun c => if c = 1 then 32 else 0) 96).ret
        = (if b = 0 then -EINVAL else -ENOMEM) :=
  C14_read_after_fault 32 three_desc_cdev 1 (fun _ => 0) (fun c => if c = 1 then 32 else 0) 96
    (by decide) (by decide) (by decide) (by decide)
    (by intro t ht; simp [three_desc_cdev] at ht; rcases ht with rfl | rfl <;> decide)
    (by norm_num)
    ⟨32, desc_at 32 ⟨2, fun j => j⟩ 1, 32, by decide, by decide⟩

/-- C17: in a read that passes validation, over a transfer list `init ++ [t]`, the value
returned is decided by the last call of `copy_desc_data` alone (the one for `t`): it is that
call's `rc` when negative, else the final offset; the `rc` of the calls for `init` does not
enter. In particular, when `t.desc_num <= 0`, the value returned is the final offset (as
the `return` converts it to `ssize_t`), whatever conditions were recorded for earlier
records; when moreover `buf_size + D` is representable in `size_t` and `buf_size < 2 ^ 63`,
it is that offset as a non-negative byte count, and if some copy failed it is `buf_size`
although fewer than `buf_size` bytes were copied. -/
theorem C17_read_last_status_only (D : Nat) (xcdev : xdma_cdev) (buf : Nat) (mem : Nat → Byte)
    (fault : Nat → Nat) (buf_size : Nat) (init : List xdma_transfer) (t : xdma_transfer)
    (hchk : 0 ≤ xcdev.check) (hcnt : buf_size % 4 = 0) (hbuf : buf ≠ 0)
    (hbar : 0 ≤ xcdev.xdev.bypass_bar_idx) (hl : xcdev.engine.transfer_list = init ++ [t]) :
    (char_bypass_read D xcdev buf mem fault buf_size).ret
      = (if (copy_desc_data D fault t buf buf_size
              { (transfer_loop D fault buf buf_size init 0 0
                  ⟨mem, 0, 0, [Event.spin_lock, Event.list_empty]⟩).2 with
                trace := (transfer_loop D fault buf buf_size init 0 0
                  ⟨mem, 0, 0, [Event.spin_lock, Event.list_empty]⟩).2.trace
                    ++ [Event.list_entry init.length] }).1 < 0
         then (copy_desc_data D fault t buf buf_size
              { (transfer_loop D fault buf buf_size init 0 0
                  ⟨mem, 0, 0, [Event.spin_lock, Event.list_empty]⟩).2 with
                trace := (transfer_loop D fault buf buf_size init 0 0
                  ⟨mem, 0, 0, [Event.spin_lock, Event.list_empty]⟩).2.trace
                    ++ [Event.list_entry init.length] }).1
         else to_ssize_t (copy_desc_data D fault t buf buf_size
              { (transfer_loop D fault buf buf_size init 0 0
                  ⟨mem, 0, 0, [Event.spin_lock, Event.list_empty]⟩).2 with
                trace := (transfer_loop D fault buf buf_size init 0 0
                  ⟨mem, 0, 0, [Event.spin_lock, Event.list_empty]⟩).2.trace
                    ++ [Event.list_entry init.length] }).2.buf_offset) ∧
    (t.desc_num ≤ 0 →
      (char_bypass_read D xcdev buf mem fault buf_size).ret
        = to_ssize_t (char_bypass_read D xcdev buf mem fault buf_size).buf_offset ∧
      (buf_size + D < 2 ^ 64 ∧ buf_size < 2 ^ 63 →
        (char_bypass_read D xcdev buf mem fault buf_size).ret
          = ((char_bypass_read D xcdev buf mem fault buf_size).buf_offset : Int) ∧
        ((∃ off src err,
            Event.copy_to_user off src err
              ∈ (char_bypass_read D xcdev buf mem fault buf_size).trace ∧ err ≠ 0) →
          (char_bypass_read D xcdev buf mem fault buf_size).ret = (buf_size : Int) ∧
          bytes_copied (char_bypass_read D xcdev buf mem fault buf_size).trace
            < buf_size))) := by
  rw [char_bypass_read_valid D xcdev buf mem fault buf_size hchk hcnt hbuf hbar, hl,
    transfer_loop_append]
  simp only [transfer_loop, Nat.zero_add]
  refine ⟨trivial, ?_⟩
  intro ht
  have hn : t.desc_num.toNat = 0 := by omega
  have hcd : ∀ s : RState, copy_desc_data D fault t buf buf_size s = (0, s) := by
    intro s
    simp [copy_desc_data, hbuf, hn, desc_loop]
  simp only [hcd, lt_self_iff_false, if_false]
  refine ⟨trivial, ?_⟩
  rintro ⟨hB, hS⟩
  have hp := transfer_loop_phase D fault buf buf_size hbuf hB init 0 0
    ⟨mem, 0, 0, [Event.spin_lock, Event.list_empty]⟩ (read_phase_init D buf_size mem)
  generalize transfer_loop D fault buf buf_size init 0 0
    ⟨mem, 0, 0, [Event.spin_lock, Event.list_empty]⟩ = r at hp
  have hle : r.2.buf_offset ≤ buf_size := hp.1
  refine ⟨to_ssize_t_of_lt _ (by omega), ?_⟩
  rintro ⟨off, src, err, hmem, herr⟩
  have hmem1 : Event.copy_to_user off src err ∈ r.2.trace := by
    simp only [List.mem_append, List.mem_singleton] at hmem
    rcases hmem with (h | h) | h
    · exact h
    · cases h
    · cases h
  obtain ⟨hoff, hb, _⟩ := read_phase_of_fault D buf_size r.2 hp off src err hmem1 herr
  constructor
  · rw [hoff]
    exact to_ssize_t_of_lt _ hS
  · simpa [bytes_copied_append, bytes_copied] using hb

/-- C17 at a concrete call: a transfer of one record of 32 bytes whose copy fails, followed
by a transfer without record, capacity 64. -/
theorem C17_read_last_status_only_witness :
    (char_bypass_read 32 trailing_empty_cdev 1 (fun _ => 0) (fun _ => 32) 64).ret
      = (if (copy_desc_data 32 (fun _ => 32) ⟨0, fun _ => 0⟩ 1 64
              { (transfer_loop 32 (fun _ => 32) 1 64 [⟨1, fun j => j⟩] 0 0
                  ⟨fun _ => 0, 0, 0, [Event.spin_lock, Event.list_empty]⟩).2 with
                trace := (transfer_loop 32 (fun _ => 32) 1 64 [⟨1, fun j => j⟩] 0 0
                  ⟨fun _ => 0, 0, 0, [Event.spin_lock, Event.list_empty]⟩).2.trace
                    ++ [Event.list_entry [(⟨1, fun j => j⟩ : xdma_transfer)].length] }).1 < 0
         then (copy_desc_data 32 (fun _ => 32) ⟨0, fun _ => 0⟩ 1 64
              { (transfer_loop 32 (fun _ => 32) 1 64 [⟨1, fun j => j⟩] 0 0
                  ⟨fun _ => 0, 0, 0, [Event.spin_lock, Event.list_empty]⟩).2 with
                trace := (transfer_loop 32 (fun _ => 32) 1 64 [⟨1, fun j => j⟩] 0 0
                  ⟨fun _ => 0, 0, 0, [Event.spin_lock, Event.list_empty]⟩).2.trace
                    ++ [Event.list_entry [(⟨1, fun j => j⟩ : xdma_transfer)].length] }).1
         else to_ssize_t (copy_desc_data 32 (fun _ => 32) ⟨0, fun _ => 0⟩ 1 64
              { (transfer_loop 32 (fun _ => 32) 1 64 [⟨1, fun j => j⟩] 0 0
                  ⟨fun _ => 0, 0, 0, [Event.spin_lock, Event.list_empty]⟩).2 with
                trace := (transfer_loop 32 (fun _ => 32) 1 64 [⟨1, fun j => j⟩] 0 0
                  ⟨fun _ => 0, 0, 0, [Event.spin_lock, Event.list_empty]⟩).2.trace
                    ++ [Event.list_entry [(⟨1, fun j => j⟩ : xdma_transfer)].length] }).2.buf_offset) ∧
    ((0 : Int) ≤ 0 →
      (char_bypass_read 32 trailing_empty_cdev 1 (fun _ => 0) (fun _ => 32) 64).ret
        = to_ssize_t
            (char_bypass_read 32 trailing_empty_cdev 1 (fun _ => 0) (fun _ => 32) 64).buf_offset ∧
      (64 + 32 < 2 ^ 64 ∧ 64 < 2 ^ 63 →
        (char_bypass_read 32 trailing_empty_cdev 1 (fun _ => 0) (fun _ => 32) 64).ret
          = ((char_bypass_read 32 trailing_empty_cdev 1 (fun _ => 0) (fun _ => 32) 64).buf_offset
              : Int) ∧
        ((∃ off src err,
            Event.copy_to_user off src err
              ∈ (char_bypass_read 32 trailing_empty_cdev 1 (fun _ => 0) (fun _ => 32) 64).trace ∧
            err ≠ 0) →
          (char_bypass_read 32 trailing_empty_cdev 1 (fun _ => 0) (fun _ => 32) 64).ret
            = ((64 : Nat) : Int) ∧
          bytes_copied (char_bypass_read 32 trailing_empty_cdev 1 (fun _ => 0)
            (fun _ => 32) 64).trace < 64))) :=
  C17_read_last_status_only 32 trailing_empty_cdev 1 (fun _ => 0) (fun _ => 32) 64
    [⟨1, fun j => j⟩] ⟨0, fun _ => 0⟩ (by decide) (by decide) (by decide) (by decide) rfl

end XdmaBypass
